import Mathlib

set_option maxRecDepth 8192

/-!
Shallow embedding of the core of `charliek/envsecrets` (Go), for checking the
natural-language specification against the code.

Conventions:
* Byte slices (`[]byte`) are `List Nat`; strings holding raw remote content or
  paths are `List Char` where character-level reasoning is needed, `String`
  where they are only used as opaque keys.
* Fallible Go functions returning `(T, error)` become `Except DomainError T`.
* External collaborators (the age encryption library, the securejoin library,
  the object store, the git backend) are abstracted as parameters; everything
  written in this repository is translated from the source.
-/

namespace EnvSecrets

/-- Sentinel errors from `internal/domain` (errors.go), restricted to those the
modelled operations can produce.  `unknownError` stands for any error outside
this set (wrapped I/O failures and the like). -/
inductive DomainError where
  | conflict
  | decryptFailed
  | encryptFailed
  | downloadFailed
  | userCancelled
  | invalidArgs
  | fileNotFound
  | repoNotFound
  | nothingToCommit
  | remoteChanged
  | fileSizeTooLarge
  | gitError
  | unknownError
  deriving DecidableEq, Repr

/-- `constants.MaxEnvFileSize`: maximum size of an env file, 1 MiB. -/
def MaxEnvFileSize : Int := 1 * 1024 * 1024

/-- `constants.MaxEncryptedFileSize`: maximum size of an encrypted file, 2 MiB. -/
def MaxEncryptedFileSize : Int := 2 * 1024 * 1024

/-- Go `int64` two's-complement wrap: brings an integer into
`[-2^63, 2^63)` the way Go's `int64` addition overflows (`math.MaxInt64 + 1`
wraps to `math.MinInt64`).  Written with decimal literals `2^63` and `2^64`. -/
def int64Wrap (n : Int) : Int :=
  (n + 9223372036854775808) % 18446744073709551616 - 9223372036854775808

theorem int64Wrap_eq_of_range (n : Int) (hlb : -9223372036854775808 ≤ n)
    (hub : n < 9223372036854775808) : int64Wrap n = n := by
  simp only [int64Wrap]
  omega

/-- `internal/io/limited.go` `LimitedReadAll(r, maxBytes, context)`: wraps the
reader in `io.LimitReader(r, maxBytes+1)` (so it reads at most `maxBytes+1`
elements) and errors with `ErrFileSizeTooLarge` if more than `maxBytes` were
read.  `maxBytes` is a Go `int64`, so `maxBytes+1` is computed with
two's-complement wraparound (at `maxBytes = math.MaxInt64` it overflows to
`math.MinInt64` and the `LimitReader` yields nothing); a non-positive limit
makes `io.LimitReader` return EOF at once, modelled by `Int.toNat` clamping
to `0`.  The reader is modelled by the full list of elements it would yield. -/
def LimitedReadAll {α : Type} (stream : List α) (maxBytes : Int) :
    Except DomainError (List α) :=
  let data := stream.take (int64Wrap (maxBytes + 1)).toNat
  if (data.length : Int) > maxBytes then .error .fileSizeTooLarge
  else .ok data

theorem limitedReadAll_ok {α : Type} (stream : List α) (maxBytes : Int)
    (hub : maxBytes ≤ 9223372036854775806)
    (h : (stream.length : Int) ≤ maxBytes) :
    LimitedReadAll stream maxBytes = .ok stream := by
  have hw : int64Wrap (maxBytes + 1) = maxBytes + 1 :=
    int64Wrap_eq_of_range _ (by omega) (by omega)
  have htake : stream.take (int64Wrap (maxBytes + 1)).toNat = stream := by
    rw [hw]
    exact List.take_of_length_le (by omega)
  simp only [LimitedReadAll, htake]
  rw [if_neg (by omega)]

theorem limitedReadAll_err {α : Type} (stream : List α) (maxBytes : Int)
    (hlb : -9223372036854775808 ≤ maxBytes)
    (hub : maxBytes ≤ 9223372036854775806)
    (h : (stream.length : Int) > maxBytes) :
    LimitedReadAll stream maxBytes = .error .fileSizeTooLarge := by
  have hw : int64Wrap (maxBytes + 1) = maxBytes + 1 :=
    int64Wrap_eq_of_range _ (by omega) (by omega)
  simp only [LimitedReadAll, hw]
  rw [if_pos]
  rw [List.length_take]
  omega

theorem limitedReadAll_ok_inv {α : Type} {stream data : List α} {maxBytes : Int}
    (hub : maxBytes ≤ 9223372036854775806)
    (h : LimitedReadAll stream maxBytes = .ok data) :
    data = stream ∧ (data.length : Int) ≤ maxBytes := by
  simp only [LimitedReadAll] at h
  split at h
  · exact absurd h (by simp)
  · rename_i hle
    cases h
    rw [List.length_take] at hle
    have hmb : 0 ≤ maxBytes := by omega
    have hw : int64Wrap (maxBytes + 1) = maxBytes + 1 :=
      int64Wrap_eq_of_range _ (by omega) (by omega)
    rw [hw] at hle ⊢
    have h1 : stream.length ≤ (maxBytes + 1).toNat := by omega
    refine ⟨List.take_of_length_le h1, ?_⟩
    rw [List.take_of_length_le h1]
    omega

/-- C10 counterexample: the original claim quantifies over every limit
`maxBytes`, but at `maxBytes = math.MaxInt64 = 2^63 - 1` the `int64`
computation `maxBytes + 1` in `io.LimitReader(r, maxBytes+1)` wraps to
`math.MinInt64`, the limited reader yields nothing, and `LimitedReadAll`
returns an empty slice with no error for a one-element stream that holds at
most `maxBytes` bytes — the full contents are not returned. -/
theorem limitedReadAll_overflow_cex :
    ((([42] : List Nat).length : Int) ≤ 9223372036854775807)
    ∧ LimitedReadAll ([42] : List Nat) 9223372036854775807 = .ok []
    ∧ (Except.ok ([] : List Nat) : Except DomainError (List Nat)) ≠ .ok [42] := by
  refine ⟨by decide, ?_, by simp⟩
  have hw : int64Wrap (9223372036854775807 + 1) = -9223372036854775808 := by
    simp only [int64Wrap]
    decide
  have ht : ((-9223372036854775808 : Int)).toNat = 0 := by decide
  simp only [LimitedReadAll, hw, ht, List.take_zero, List.length_nil,
    Nat.cast_zero]
  rw [if_neg (by decide)]

/-- C10 (amended): for every limit `maxBytes` in the `int64` range that is
strictly below `math.MaxInt64` (so the `int64` computation `maxBytes + 1`
does not overflow), `LimitedReadAll(r, maxBytes)` returns exactly the full
contents of the stream when the stream holds at most `maxBytes` bytes, fails
with the `ErrFileSizeTooLarge` error whenever the stream holds more than
`maxBytes` bytes, and never returns a list longer than `maxBytes`. -/
theorem limitedReadAll_spec {α : Type} (stream : List α) (maxBytes : Int)
    (hlb : -9223372036854775808 ≤ maxBytes)
    (hub : maxBytes ≤ 9223372036854775806) :
    ((stream.length : Int) ≤ maxBytes → LimitedReadAll stream maxBytes = .ok stream)
    ∧ ((stream.length : Int) > maxBytes →
        LimitedReadAll stream maxBytes = .error .fileSizeTooLarge)
    ∧ (∀ data, LimitedReadAll stream maxBytes = .ok data →
        (data.length : Int) ≤ maxBytes) := by
  refine ⟨limitedReadAll_ok stream maxBytes hub,
          limitedReadAll_err stream maxBytes hlb hub,
          fun data h => (limitedReadAll_ok_inv hub h).2⟩

/-- Witness for `limitedReadAll_spec` at concrete inputs. -/
theorem limitedReadAll_spec_witness :
    LimitedReadAll [1, 2, 3] (3 : Int) = .ok [1, 2, 3]
    ∧ LimitedReadAll [1, 2, 3] (2 : Int) = .error .fileSizeTooLarge :=
  ⟨(limitedReadAll_spec [1, 2, 3] 3 (by decide) (by decide)).1 (by decide),
   (limitedReadAll_spec [1, 2, 3] 2 (by decide) (by decide)).2.1 (by decide)⟩

/-! ## Crypto (`internal/crypto`, `AgeEncrypter`)

`AgeEncrypter.Encrypt` and `AgeEncrypter.Decrypt` wrap the external
`filippo.io/age` library.  The library is abstracted as a pair of stream
functions fixed to one passphrase; its documented contract (decrypting an
encryption of `b` yields the stream `b`) is taken as a hypothesis where a
theorem needs it, never assumed globally. -/

/-- The age library's behaviour for one fixed passphrase: `encryptStream b` is
the ciphertext produced for plaintext `b` and `decryptStream c` the plaintext
stream recovered from `c` (`none` = header or authentication failure). -/
structure AgeLib where
  encryptStream : List Nat → List Nat
  decryptStream : List Nat → Option (List Nat)

/-- `AgeEncrypter.Encrypt` (crypto.go): streams the plaintext through the age
writer and returns the buffer.  The pure model cannot fail (the Go error paths
are writer I/O failures). -/
def AgeEncrypter.Encrypt (lib : AgeLib) (plaintext : List Nat) :
    Except DomainError (List Nat) :=
  .ok (lib.encryptStream plaintext)

/-- `AgeEncrypter.Decrypt` (crypto.go): `age.Decrypt` yields a plaintext
stream (or fails, mapped to `ErrDecryptFailed`), which is then read through
`LimitedReadAll(r, constants.MaxEnvFileSize, ...)`; a file-size error from
that read is returned as-is. -/
def AgeEncrypter.Decrypt (lib : AgeLib) (ciphertext : List Nat) :
    Except DomainError (List Nat) :=
  match lib.decryptStream ciphertext with
  | none => .error .decryptFailed
  | some s =>
    match LimitedReadAll s MaxEnvFileSize with
    | .error e => .error e
    | .ok plaintext => .ok plaintext

/-- A concrete `AgeLib` satisfying the library's round-trip contract, used to
evaluate the encrypter model at concrete inputs. -/
def idAge : AgeLib :=
  { encryptStream := fun b => b
    decryptStream := fun c => some c }

theorem decrypt_of_stream (lib : AgeLib) (ct s : List Nat)
    (hdec : lib.decryptStream ct = some s) :
    AgeEncrypter.Decrypt lib ct
      = match LimitedReadAll s MaxEnvFileSize with
        | .error e => .error e
        | .ok plaintext => .ok plaintext := by
  unfold AgeEncrypter.Decrypt
  rw [hdec]

theorem decrypt_ok_of_small (lib : AgeLib) (ct s : List Nat)
    (hdec : lib.decryptStream ct = some s)
    (hle : (s.length : Int) ≤ MaxEnvFileSize) :
    AgeEncrypter.Decrypt lib ct = .ok s := by
  rw [decrypt_of_stream lib ct s hdec, limitedReadAll_ok s MaxEnvFileSize (by decide) hle]

theorem decrypt_err_of_large (lib : AgeLib) (ct s : List Nat)
    (hdec : lib.decryptStream ct = some s)
    (hgt : (s.length : Int) > MaxEnvFileSize) :
    AgeEncrypter.Decrypt lib ct = .error .fileSizeTooLarge := by
  rw [decrypt_of_stream lib ct s hdec, limitedReadAll_err s MaxEnvFileSize (by decide) (by decide) hgt]

/-- C1 counterexample: a plaintext of `MaxEnvFileSize + 1` bytes (well under
2 MiB) encrypts fine but fails to decrypt, because `Decrypt` limits the
decrypted output to `MaxEnvFileSize` (1 MiB), not 2 MiB. -/
theorem roundtrip_two_mib_cex :
    ((List.replicate (1024 * 1024 + 1) 0).length : Int) ≤ MaxEncryptedFileSize
    ∧ idAge.decryptStream (idAge.encryptStream (List.replicate (1024 * 1024 + 1) 0))
        = some (List.replicate (1024 * 1024 + 1) 0)
    ∧ AgeEncrypter.Encrypt idAge (List.replicate (1024 * 1024 + 1) 0)
        = .ok (List.replicate (1024 * 1024 + 1) 0)
    ∧ AgeEncrypter.Decrypt idAge (List.replicate (1024 * 1024 + 1) 0)
        = .error .fileSizeTooLarge := by
  refine ⟨?_, rfl, rfl, ?_⟩
  · rw [List.length_replicate]
    norm_num [MaxEncryptedFileSize]
  · apply decrypt_err_of_large idAge _ _ rfl
    rw [List.length_replicate]
    norm_num [MaxEnvFileSize]

/-- C1 (amended): for every age-library behaviour satisfying the library's
round-trip contract and every plaintext of at most `MaxEnvFileSize` (1 MiB)
bytes, decrypting the ciphertext produced by `Encrypt` succeeds and returns
exactly the plaintext. -/
theorem encrypt_decrypt_roundtrip (lib : AgeLib)
    (hrt : ∀ b, lib.decryptStream (lib.encryptStream b) = some b)
    (b : List Nat) (hsize : (b.length : Int) ≤ MaxEnvFileSize)
    (ct : List Nat) (henc : AgeEncrypter.Encrypt lib b = .ok ct) :
    AgeEncrypter.Decrypt lib ct = .ok b := by
  have hct : ct = lib.encryptStream b := by
    simpa [AgeEncrypter.Encrypt] using henc.symm
  subst hct
  exact decrypt_ok_of_small lib _ b (hrt b) hsize

/-- Witness for `encrypt_decrypt_roundtrip`. -/
theorem encrypt_decrypt_roundtrip_witness :
    AgeEncrypter.Decrypt idAge [7, 8] = .ok [7, 8] :=
  encrypt_decrypt_roundtrip idAge (fun _ => rfl) [7, 8]
    (by norm_num [MaxEnvFileSize]) [7, 8] rfl

/-- C2 counterexample: a ciphertext whose plaintext is exactly 2 MiB does not
decrypt successfully — it fails with `ErrFileSizeTooLarge`, because the
decrypt limit is `MaxEnvFileSize` (1 MiB). -/
theorem decrypt_two_mib_cex :
    idAge.decryptStream (List.replicate (2 * 1024 * 1024) 0)
      = some (List.replicate (2 * 1024 * 1024) 0)
    ∧ AgeEncrypter.Decrypt idAge (List.replicate (2 * 1024 * 1024) 0)
      = .error .fileSizeTooLarge := by
  refine ⟨rfl, ?_⟩
  apply decrypt_err_of_large idAge _ _ rfl
  rw [List.length_replicate]
  norm_num [MaxEnvFileSize]

/-- C2 (amended): `Decrypt` limits the decrypted output to `MaxEnvFileSize`
(1 MiB): whenever the age layer recovers a plaintext stream `s`, decryption
succeeds with exactly `s` iff `s` holds at most `MaxEnvFileSize` bytes, and
fails with the `ErrFileSizeTooLarge` error iff it holds more. -/
theorem decrypt_size_limit (lib : AgeLib) (ct s : List Nat)
    (hdec : lib.decryptStream ct = some s) :
    ((s.length : Int) ≤ MaxEnvFileSize → AgeEncrypter.Decrypt lib ct = .ok s)
    ∧ ((s.length : Int) > MaxEnvFileSize →
        AgeEncrypter.Decrypt lib ct = .error .fileSizeTooLarge) :=
  ⟨decrypt_ok_of_small lib ct s hdec, decrypt_err_of_large lib ct s hdec⟩

/-- Witness for `decrypt_size_limit`: a plaintext of exactly 1 MiB decrypts
successfully. -/
theorem decrypt_size_limit_witness :
    AgeEncrypter.Decrypt idAge (List.replicate (1024 * 1024) 0)
      = .ok (List.replicate (1024 * 1024) 0) :=
  (decrypt_size_limit idAge (List.replicate (1024 * 1024) 0)
      (List.replicate (1024 * 1024) 0) rfl).1
    (by rw [List.length_replicate]; norm_num [MaxEnvFileSize])

/-! ## Remote HEAD (`internal/cache/cache.go`, `isValidGitHash` / `GetRemoteHead`)

The downloaded HEAD object is modelled as the list of characters the storage
reader would yield (the real content is ASCII, so bytes and characters
coincide on every input of interest). -/

/-- Whitespace as trimmed by Go's `strings.TrimSpace` (`unicode.IsSpace`),
restricted to the Latin-1 range; HEAD content is ASCII. -/
def goIsSpace (c : Char) : Bool :=
  c = ' ' ∨ c = '\t' ∨ c = '\n' ∨ c = '\x0b' ∨ c = '\x0c' ∨ c = '\r'
    ∨ c = '\u0085' ∨ c = ' '

/-- Go's `strings.TrimSpace`: drop leading and trailing whitespace. -/
def goTrimSpace (s : List Char) : List Char :=
  ((s.dropWhile goIsSpace).reverse.dropWhile goIsSpace).reverse

/-- `isValidGitHash` (cache.go): exactly 40 characters, each of which is a
decimal digit or a hex letter in either case. -/
def isValidGitHash (s : List Char) : Bool :=
  s.length == 40 && s.all fun c =>
    ('0' ≤ c ∧ c ≤ '9') ∨ ('a' ≤ c ∧ c ≤ 'f') ∨ ('A' ≤ c ∧ c ≤ 'F')

/-- The lowercase-hex alphabet named by the specification. -/
def isLowerHex (c : Char) : Bool :=
  ('0' ≤ c ∧ c ≤ '9') ∨ ('a' ≤ c ∧ c ≤ 'f')

/-- `maxHeadSize` (cache.go `GetRemoteHead`): size limit for the HEAD read. -/
def maxHeadSize : Int := 1024

/-- `Cache.GetRemoteHead` (cache.go): download the remote HEAD object
(modelled by the download's outcome), read it through
`LimitedReadAll(r, maxHeadSize, ...)` — any read failure is wrapped as
`ErrDownloadFailed` — trim whitespace, and validate with `isValidGitHash`;
invalid content is an `ErrDownloadFailed` error. -/
def GetRemoteHead (download : Except DomainError (List Char)) :
    Except DomainError (List Char) :=
  match download with
  | .error e => .error e
  | .ok content =>
    match LimitedReadAll content maxHeadSize with
    | .error _ => .error .downloadFailed
    | .ok data =>
      let head := goTrimSpace data
      if isValidGitHash head then .ok head else .error .downloadFailed

theorem getRemoteHead_ok_eq (content : List Char)
    (hlen : (content.length : Int) ≤ maxHeadSize) :
    GetRemoteHead (.ok content)
      = if isValidGitHash (goTrimSpace content)
        then .ok (goTrimSpace content) else .error .downloadFailed := by
  simp only [GetRemoteHead]
  rw [limitedReadAll_ok content maxHeadSize (by decide) hlen]

theorem getRemoteHead_err_eq (content : List Char)
    (hlen : (content.length : Int) > maxHeadSize) :
    GetRemoteHead (.ok content) = .error .downloadFailed := by
  simp only [GetRemoteHead]
  rw [limitedReadAll_err content maxHeadSize (by decide) (by decide) hlen]

theorem dropWhile_replicate_space (n : Nat) (ys : List Char) :
    (List.replicate n ' ' ++ ys).dropWhile goIsSpace = ys.dropWhile goIsSpace := by
  induction n with
  | zero => simp
  | succ k ih =>
    rw [List.replicate_succ, List.cons_append, List.dropWhile_cons_of_pos (by decide)]
    exact ih

theorem dropWhile_replicate_a (m : Nat) :
    (List.replicate m 'a').dropWhile goIsSpace = List.replicate m 'a' := by
  cases m with
  | zero => simp
  | succ k =>
    rw [List.replicate_succ, List.dropWhile_cons_of_neg (by decide)]

theorem goTrimSpace_space_pad (n m : Nat) :
    goTrimSpace (List.replicate n ' ' ++ List.replicate m 'a')
      = List.replicate m 'a' := by
  unfold goTrimSpace
  rw [dropWhile_replicate_space, dropWhile_replicate_a, List.reverse_replicate,
    dropWhile_replicate_a, List.reverse_replicate]

/-- C3 counterexample, both directions: (a) content of 40 uppercase `A`s is
returned even though it is not lowercase hex; (b) content that trims to 40
lowercase hex characters but exceeds the 1024-byte read limit fails. -/
theorem getRemoteHead_lowercase_cex :
    GetRemoteHead (.ok (List.replicate 40 'A')) = .ok (List.replicate 40 'A')
    ∧ (List.replicate 40 'A').all isLowerHex = false
    ∧ goTrimSpace (List.replicate 985 ' ' ++ List.replicate 40 'a')
        = List.replicate 40 'a'
    ∧ isValidGitHash (List.replicate 40 'a') = true
    ∧ (List.replicate 40 'a').all isLowerHex = true
    ∧ GetRemoteHead (.ok (List.replicate 985 ' ' ++ List.replicate 40 'a'))
        = .error .downloadFailed := by
  refine ⟨?_, by decide, goTrimSpace_space_pad 985 40, by decide, by decide, ?_⟩
  · rw [getRemoteHead_ok_eq _ (by rw [List.length_replicate]; decide)]
    rw [if_pos (by decide : isValidGitHash (goTrimSpace (List.replicate 40 'A')) = true)]
    exact congrArg Except.ok (by decide)
  · exact getRemoteHead_err_eq _
      (by rw [List.length_append, List.length_replicate, List.length_replicate]; decide)

/-- C3 (amended): when the download succeeds and its content is within the
1024-byte read limit, `GetRemoteHead` trims surrounding whitespace and
returns the trimmed result if and only if it consists of exactly 40 hex
characters (digits, or letters a–f in either case, per `isValidGitHash`);
any other content yields an error rather than a head value. -/
theorem getRemoteHead_spec (content : List Char)
    (hlen : (content.length : Int) ≤ maxHeadSize) :
    (isValidGitHash (goTrimSpace content) = true →
      GetRemoteHead (.ok content) = .ok (goTrimSpace content))
    ∧ (isValidGitHash (goTrimSpace content) = false →
      GetRemoteHead (.ok content) = .error .downloadFailed)
    ∧ (∀ h, GetRemoteHead (.ok content) = .ok h →
      h = goTrimSpace content ∧ isValidGitHash h = true) := by
  have hread := getRemoteHead_ok_eq content hlen
  refine ⟨fun hv => by rw [hread, if_pos hv],
          fun hv => by rw [hread, hv]; simp,
          fun h hok => ?_⟩
  rw [hread] at hok
  by_cases hv : isValidGitHash (goTrimSpace content) = true
  · rw [if_pos hv] at hok
    cases hok
    exact ⟨rfl, hv⟩
  · rw [if_neg hv] at hok
    exact absurd hok (by simp)

/-- Witness for `getRemoteHead_spec`: a HEAD object holding 40 lowercase hex
characters and a trailing newline parses to the trimmed hash. -/
theorem getRemoteHead_spec_witness :
    GetRemoteHead (.ok (List.replicate 40 'b' ++ ['\n']))
      = .ok (List.replicate 40 'b') := by
  have h := (getRemoteHead_spec (List.replicate 40 'b' ++ ['\n'])
    (by rw [List.length_append, List.length_replicate]; decide)).1
  have htrim : goTrimSpace (List.replicate 40 'b' ++ ['\n'])
      = List.replicate 40 'b' := by decide
  rw [htrim] at h
  exact h (by decide)

/-! ## File maps

Both the project working tree (`discovery`) and the cache working tree
(`cache`/git) are directories of files; they are modelled as association
lists from path to contents, with in-place overwrite. -/

/-- A directory of files: path to byte contents. -/
def FileMap : Type := List (String × List Nat)

def FileMap.find : FileMap → String → Option (List Nat)
  | [], _ => none
  | (k', v) :: rest, k => if k' = k then some v else FileMap.find rest k

def FileMap.insert : FileMap → String → List Nat → FileMap
  | [], k, v => [(k, v)]
  | (k', v') :: rest, k, v =>
    if k' = k then (k, v) :: rest else (k', v') :: FileMap.insert rest k v

def FileMap.erase : FileMap → String → FileMap
  | [], _ => []
  | (k', v') :: rest, k =>
    if k' = k then FileMap.erase rest k else (k', v') :: FileMap.erase rest k

theorem FileMap.find_insert_self (m : FileMap) (k : String) (v : List Nat) :
    FileMap.find (FileMap.insert m k v) k = some v := by
  induction m with
  | nil => simp [FileMap.insert, FileMap.find]
  | cons kv rest ih =>
    obtain ⟨k', v'⟩ := kv
    by_cases h : k' = k
    · simp [FileMap.insert, FileMap.find, h]
    · simp [FileMap.insert, FileMap.find, h, ih]

theorem FileMap.find_insert_ne (m : FileMap) (k k₀ : String) (v : List Nat)
    (h : k ≠ k₀) :
    FileMap.find (FileMap.insert m k v) k₀ = FileMap.find m k₀ := by
  have h' : k₀ ≠ k := fun e => h e.symm
  induction m with
  | nil => simp [FileMap.insert, FileMap.find, h]
  | cons kv rest ih =>
    obtain ⟨k', v'⟩ := kv
    by_cases hk : k' = k
    · subst hk
      simp [FileMap.insert, FileMap.find, h]
    · by_cases hk0 : k' = k₀
      · simp [FileMap.insert, FileMap.find, hk, hk0, h']
      · simp [FileMap.insert, FileMap.find, hk, hk0, ih]

theorem FileMap.find_erase_self (m : FileMap) (k : String) :
    FileMap.find (FileMap.erase m k) k = none := by
  induction m with
  | nil => simp [FileMap.erase, FileMap.find]
  | cons kv rest ih =>
    obtain ⟨k', v'⟩ := kv
    by_cases h : k' = k
    · simp [FileMap.erase, h, ih]
    · simp [FileMap.erase, FileMap.find, h, ih]

theorem FileMap.find_erase_ne (m : FileMap) (k k₀ : String) (h : k ≠ k₀) :
    FileMap.find (FileMap.erase m k) k₀ = FileMap.find m k₀ := by
  have h' : k₀ ≠ k := fun e => h e.symm
  induction m with
  | nil => simp [FileMap.erase]
  | cons kv rest ih =>
    obtain ⟨k', v'⟩ := kv
    by_cases hk : k' = k
    · subst hk
      simp [FileMap.erase, FileMap.find, h, ih]
    · by_cases hk0 : k' = k₀
      · simp [FileMap.erase, FileMap.find, hk, hk0, h']
      · simp [FileMap.erase, FileMap.find, hk, hk0, ih]

/-- Appending the ciphertext extension is injective in the path. -/
theorem age_key_inj {f g : String} (h : f ++ ".age" = g ++ ".age") : f = g := by
  have hd := congrArg String.data h
  simp only [String.data_append] at hd
  exact String.ext (List.append_inj_left' hd rfl)

/-! ## Discovery, cache state and push (`internal/project/discovery.go`,
`internal/cache/cache.go`, `internal/sync/push.go`)

Filesystem and git effects are made explicit: the project working tree is a
`FileMap` of plaintexts, the cache working tree a `FileMap` of ciphertexts
keyed by `<path>.age`, and the git-visible effects (`StageAll`, `Commit`,
`SyncToStorage`) are recorded as flags/counters on the cache state.  The two
`GetRemoteHead` calls a push makes are inputs of the environment, since the
remote may change between them. -/

/-- The `crypto.Encrypter` interface. -/
structure Encrypter where
  encrypt : List Nat → Except DomainError (List Nat)
  decrypt : List Nat → Except DomainError (List Nat)

/-- The encrypter interface instantiated with `AgeEncrypter`. -/
def ageEncrypter (lib : AgeLib) : Encrypter :=
  { encrypt := AgeEncrypter.Encrypt lib
    decrypt := AgeEncrypter.Decrypt lib }

/-- An encrypter whose ciphertexts are the plaintexts, used to evaluate the
sync layer at concrete inputs. -/
def idEncrypter : Encrypter :=
  { encrypt := fun b => .ok b, decrypt := fun b => .ok b }

/-- `Discovery.FileExists` (discovery.go): `os.Stat` succeeds. -/
def Discovery.FileExists (localFiles : FileMap) (f : String) : Bool :=
  (FileMap.find localFiles f).isSome

/-- `Discovery.ReadFile` (discovery.go): open the file and read it through
`LimitedReadAll(f, constants.MaxEnvFileSize, ...)`. -/
def Discovery.ReadFile (localFiles : FileMap) (f : String) :
    Except DomainError (List Nat) :=
  match FileMap.find localFiles f with
  | none => .error .fileNotFound
  | some raw =>
    match LimitedReadAll raw MaxEnvFileSize with
    | .error e => .error e
    | .ok data => .ok data

/-- State of the per-project cache visible to a push: the encrypted working
tree plus git-level effects. -/
structure CacheState where
  entries : FileMap
  head : String
  commits : Nat
  staged : Bool
  uploaded : Bool

/-- `Cache.ReadEncrypted`: read `<path>.age` from the cache working tree. -/
def Cache.ReadEncrypted (c : CacheState) (f : String) :
    Except DomainError (List Nat) :=
  match FileMap.find c.entries (f ++ ".age") with
  | none => .error .fileNotFound
  | some data => .ok data

/-- `Cache.WriteEncrypted`: write `<path>.age` into the cache working tree. -/
def Cache.WriteEncrypted (c : CacheState) (f : String) (content : List Nat) :
    CacheState :=
  { c with entries := FileMap.insert c.entries (f ++ ".age") content }

/-- `Cache.RemoveEncrypted`: remove `<path>.age` from the cache working tree. -/
def Cache.RemoveEncrypted (c : CacheState) (f : String) : CacheState :=
  { c with entries := FileMap.erase c.entries (f ++ ".age") }

/-- `sync.PushOptions`. -/
structure PushOptions where
  message : String
  dryRun : Bool
  force : Bool

/-- `domain.PushResult`. -/
structure PushResult where
  commitHash : String
  filesUpdated : Nat
  filesAdded : Nat
  filesDeleted : Nat
  deriving DecidableEq, Repr

/-- The ambient inputs of one push: the tracked-file list, the local
plaintexts, the outcomes of the two `GetRemoteHead` calls, and the hash a
commit would produce. -/
structure PushEnv where
  files : List String
  localFiles : FileMap
  remoteHeadAtStart : Except DomainError String
  remoteHeadAtCheck : Except DomainError String
  commitHash : String

/-- One iteration of the per-file loop of `Syncer.Push` (push.go lines
38–94): classify the file as deleted / unchanged / updated / added, and in a
non-dry run mirror the classification into the cache working tree. -/
def pushFile (e : Encrypter) (localFiles : FileMap) (dryRun : Bool)
    (cache : CacheState) (result : PushResult) (file : String) :
    Except DomainError (CacheState × PushResult) :=
  if (Discovery.FileExists localFiles file) = false then
    match Cache.ReadEncrypted cache file with
    | .ok _ =>
      .ok (if dryRun then cache else Cache.RemoveEncrypted cache file,
           { result with filesDeleted := result.filesDeleted + 1 })
    | .error _ => .ok (cache, result)
  else
    match Discovery.ReadFile localFiles file with
    | .error err => .error err
    | .ok content =>
      match Cache.ReadEncrypted cache file with
      | .ok existingEncrypted =>
        match e.decrypt existingEncrypted with
        | .error err => .error err
        | .ok existingDecrypted =>
          if existingDecrypted = content then .ok (cache, result)
          else if dryRun then
            .ok (cache, { result with filesUpdated := result.filesUpdated + 1 })
          else
            match e.encrypt content with
            | .error err => .error err
            | .ok encrypted =>
              .ok (Cache.WriteEncrypted cache file encrypted,
                   { result with filesUpdated := result.filesUpdated + 1 })
      | .error _ =>
        if dryRun then
          .ok (cache, { result with filesAdded := result.filesAdded + 1 })
        else
          match e.encrypt content with
          | .error err => .error err
          | .ok encrypted =>
            .ok (Cache.WriteEncrypted cache file encrypted,
                 { result with filesAdded := result.filesAdded + 1 })

/-- The per-file loop of `Syncer.Push`; stops at the first error, keeping the
cache state reached so far. -/
def pushFiles (e : Encrypter) (localFiles : FileMap) (dryRun : Bool) :
    List String → CacheState → PushResult →
    CacheState × PushResult × Option DomainError
  | [], cache, result => (cache, result, none)
  | f :: rest, cache, result =>
    match pushFile e localFiles dryRun cache result f with
    | .error err => (cache, result, some err)
    | .ok (cache', result') => pushFiles e localFiles dryRun rest cache' result'

/-- The zero `PushResult` a push starts from. -/
def pushResultInit : PushResult :=
  { commitHash := "", filesUpdated := 0, filesAdded := 0, filesDeleted := 0 }

/-- The commit-and-upload tail of a successful push: `Commit` then
`SyncToStorage` (both modelled as succeeding). -/
def pushCommit (env : PushEnv) (result : PushResult) (cache : CacheState) :
    Except DomainError PushResult × CacheState :=
  (.ok { result with commitHash := env.commitHash },
   { cache with
      commits := cache.commits + 1
      head := env.commitHash
      uploaded := true })

/-- The optimistic-lock re-check of `Syncer.Push` (push.go lines 110–117):
performed only when not forced and the initial snapshot is non-empty; a
failed re-read is ignored; a successful re-read differing from the snapshot
aborts with `ErrRemoteChanged` before any commit. -/
def pushHeadCheck (env : PushEnv) (opts : PushOptions)
    (initialRemoteHead : String) (result : PushResult) (cache2 : CacheState) :
    Except DomainError PushResult × CacheState :=
  if opts.force = false ∧ initialRemoteHead ≠ "" then
    match env.remoteHeadAtCheck with
    | .ok currentRemoteHead =>
      if currentRemoteHead ≠ initialRemoteHead then
        (.error .remoteChanged, cache2)
      else pushCommit env result cache2
    | .error _ => pushCommit env result cache2
  else pushCommit env result cache2

/-- The initial remote-head snapshot of `Syncer.Push` (push.go lines 20–27):
skipped under `--force`; a snapshot error is ignored, leaving the snapshot
empty. -/
def pushInitialHead (env : PushEnv) (opts : PushOptions) : String :=
  if opts.force then ""
  else match env.remoteHeadAtStart with
    | .ok head => head
    | .error _ => ""

/-- `Syncer.Push` (push.go): snapshot the remote head (unless `--force`; a
failed snapshot is ignored and leaves the snapshot empty), run the per-file
loop, fail with `ErrNothingToCommit` when nothing changed, return early on
a dry run, stage, re-check the remote head, then commit and upload.
`EnsureCacheInitialized` is modelled as a no-op on the given cache state, and
`StageAll`/`Commit`/`SyncToStorage` as succeeding. -/
def Syncer.Push (e : Encrypter) (env : PushEnv) (opts : PushOptions)
    (cache0 : CacheState) : Except DomainError PushResult × CacheState :=
  let initialRemoteHead : String := pushInitialHead env opts
  match pushFiles e env.localFiles opts.dryRun env.files cache0 pushResultInit with
  | (cache1, _, some err) => (.error err, cache1)
  | (cache1, result, none) =>
    if result.filesAdded = 0 ∧ result.filesUpdated = 0 ∧ result.filesDeleted = 0 then
      (.error .nothingToCommit, cache1)
    else if opts.dryRun then
      (.ok result, cache1)
    else
      pushHeadCheck env opts initialRemoteHead result { cache1 with staged := true }

theorem readFile_eq_of_find (lf : FileMap) (f : String) (raw : List Nat)
    (hf : FileMap.find lf f = some raw) :
    Discovery.ReadFile lf f
      = match LimitedReadAll raw MaxEnvFileSize with
        | .error e => .error e
        | .ok data => .ok data := by
  unfold Discovery.ReadFile
  rw [hf]

theorem readFile_ok_inv {lf : FileMap} {f : String} {content : List Nat}
    (h : Discovery.ReadFile lf f = .ok content) :
    FileMap.find lf f = some content
    ∧ (content.length : Int) ≤ MaxEnvFileSize := by
  cases hf : FileMap.find lf f with
  | none =>
    unfold Discovery.ReadFile at h
    rw [hf] at h
    exact absurd h (by simp)
  | some raw =>
    rw [readFile_eq_of_find lf f raw hf] at h
    cases hr : LimitedReadAll raw MaxEnvFileSize with
    | error err => rw [hr] at h; exact absurd h (by simp)
    | ok data =>
      rw [hr] at h
      cases h
      obtain ⟨hd, hl⟩ := limitedReadAll_ok_inv (by decide) hr
      exact ⟨by rw [hd], hl⟩

theorem readFile_ok_of (lf : FileMap) (f : String) (content : List Nat)
    (hf : FileMap.find lf f = some content)
    (hl : (content.length : Int) ≤ MaxEnvFileSize) :
    Discovery.ReadFile lf f = .ok content := by
  rw [readFile_eq_of_find lf f content hf,
    limitedReadAll_ok content MaxEnvFileSize (by decide) hl]

theorem pushFile_cases {e : Encrypter} {lf : FileMap} {dr : Bool}
    {cache : CacheState} {result : PushResult} {f : String}
    {cache' : CacheState} {result' : PushResult}
    (h : pushFile e lf dr cache result f = .ok (cache', result')) :
    cache' = cache ∨ cache' = Cache.RemoveEncrypted cache f
    ∨ ∃ ct, cache' = Cache.WriteEncrypted cache f ct := by
  unfold pushFile at h
  split at h
  · split at h
    · simp only [Except.ok.injEq, Prod.mk.injEq] at h
      obtain ⟨hc, -⟩ := h
      cases dr with
      | true => exact Or.inl (by simpa using hc.symm)
      | false => exact Or.inr (Or.inl (by simpa using hc.symm))
    · simp only [Except.ok.injEq, Prod.mk.injEq] at h
      exact Or.inl h.1.symm
  · split at h
    · exact absurd h (by simp)
    · split at h
      · split at h
        · exact absurd h (by simp)
        · split at h
          · simp only [Except.ok.injEq, Prod.mk.injEq] at h
            exact Or.inl h.1.symm
          · split at h
            · simp only [Except.ok.injEq, Prod.mk.injEq] at h
              exact Or.inl h.1.symm
            · split at h
              · exact absurd h (by simp)
              · simp only [Except.ok.injEq, Prod.mk.injEq] at h
                exact Or.inr (Or.inr ⟨_, h.1.symm⟩)
      · split at h
        · simp only [Except.ok.injEq, Prod.mk.injEq] at h
          exact Or.inl h.1.symm
        · split at h
          · exact absurd h (by simp)
          · simp only [Except.ok.injEq, Prod.mk.injEq] at h
            exact Or.inr (Or.inr ⟨_, h.1.symm⟩)

theorem pushFile_state {e : Encrypter} {lf : FileMap} {dr : Bool}
    {cache : CacheState} {result : PushResult} {f : String}
    {cache' : CacheState} {result' : PushResult}
    (h : pushFile e lf dr cache result f = .ok (cache', result')) :
    cache'.head = cache.head ∧ cache'.commits = cache.commits
    ∧ cache'.staged = cache.staged ∧ cache'.uploaded = cache.uploaded
    ∧ ∀ k, k ≠ f ++ ".age" →
        FileMap.find cache'.entries k = FileMap.find cache.entries k := by
  rcases pushFile_cases h with hc | hc | ⟨ct, hc⟩
  · subst hc
    exact ⟨rfl, rfl, rfl, rfl, fun _ _ => rfl⟩
  · subst hc
    exact ⟨rfl, rfl, rfl, rfl,
      fun k hk => FileMap.find_erase_ne _ _ _ (fun e' => hk e'.symm)⟩
  · subst hc
    exact ⟨rfl, rfl, rfl, rfl,
      fun k hk => FileMap.find_insert_ne _ _ _ _ (fun e' => hk e'.symm)⟩

theorem pushFiles_state (e : Encrypter) (lf : FileMap) (dr : Bool)
    (files : List String) :
    ∀ cache result cache' result' err,
    pushFiles e lf dr files cache result = (cache', result', err) →
    cache'.head = cache.head ∧ cache'.commits = cache.commits
    ∧ cache'.staged = cache.staged ∧ cache'.uploaded = cache.uploaded := by
  induction files with
  | nil =>
    intro cache result cache' result' err h
    cases h
    exact ⟨rfl, rfl, rfl, rfl⟩
  | cons f rest ih =>
    intro cache result cache' result' err h
    unfold pushFiles at h
    cases hf : pushFile e lf dr cache result f with
    | error err' =>
      rw [hf] at h
      cases h
      exact ⟨rfl, rfl, rfl, rfl⟩
    | ok st =>
      obtain ⟨cm, rm⟩ := st
      rw [hf] at h
      obtain ⟨h1, h2, h3, h4⟩ := ih cm rm cache' result' err h
      obtain ⟨g1, g2, g3, g4, -⟩ := pushFile_state hf
      exact ⟨h1.trans g1, h2.trans g2, h3.trans g3, h4.trans g4⟩

/-- C6: during a push, a tracked file absent locally is classified `Deleted`
iff its encrypted entry exists in the cache (and, when not a dry run, that
entry is removed); if it exists in neither place it is skipped, leaving both
state and counts untouched. -/
theorem push_delete_iff_cached (e : Encrypter) (lf : FileMap) (dryRun : Bool)
    (cache : CacheState) (result : PushResult) (f : String)
    (hlocal : FileMap.find lf f = none) :
    (∀ ct, FileMap.find cache.entries (f ++ ".age") = some ct →
      pushFile e lf dryRun cache result f
        = .ok (if dryRun then cache else Cache.RemoveEncrypted cache f,
               { result with filesDeleted := result.filesDeleted + 1 })
      ∧ FileMap.find (Cache.RemoveEncrypted cache f).entries (f ++ ".age") = none)
    ∧ (FileMap.find cache.entries (f ++ ".age") = none →
      pushFile e lf dryRun cache result f = .ok (cache, result)) := by
  constructor
  · intro ct hct
    constructor
    · simp only [pushFile, Discovery.FileExists, hlocal, Option.isSome_none,
        Cache.ReadEncrypted, hct, if_true]
    · exact FileMap.find_erase_self cache.entries (f ++ ".age")
  · intro hnone
    simp only [pushFile, Discovery.FileExists, hlocal, Option.isSome_none,
      Cache.ReadEncrypted, hnone, if_true]

/-- Witness for `push_delete_iff_cached`. -/
theorem push_delete_iff_cached_witness :
    pushFile idEncrypter [] false
      { entries := [("a.age", [1])], head := "", commits := 0,
        staged := false, uploaded := false }
      pushResultInit "a"
      = .ok ({ entries := [], head := "", commits := 0,
               staged := false, uploaded := false },
             { commitHash := "", filesUpdated := 0, filesAdded := 0,
               filesDeleted := 1 })
    ∧ pushFile idEncrypter [] false
        { entries := [], head := "", commits := 0,
          staged := false, uploaded := false }
        pushResultInit "b"
      = .ok ({ entries := [], head := "", commits := 0,
               staged := false, uploaded := false }, pushResultInit) := by
  constructor
  · have h := (push_delete_iff_cached idEncrypter [] false
      { entries := [("a.age", [1])], head := "", commits := 0,
        staged := false, uploaded := false }
      pushResultInit "a" rfl).1 [1] rfl
    exact h.1.trans (by rfl)
  · exact (push_delete_iff_cached idEncrypter [] false
      { entries := [], head := "", commits := 0,
        staged := false, uploaded := false }
      pushResultInit "b" rfl).2 rfl

/-- Environment of the C4 counterexample: the initial remote-head snapshot
fails (e.g. the remote HEAD object does not exist yet), while at re-check
time a remote head exists. -/
def pushCexEnv : PushEnv :=
  { files := ["a"]
    localFiles := [("a", [1])]
    remoteHeadAtStart := .error .fileNotFound
    remoteHeadAtCheck := .ok "1111111111111111111111111111111111111111"
    commitHash := "c1" }

def pushCexOpts : PushOptions :=
  { message := "", dryRun := false, force := false }

def emptyCache : CacheState :=
  { entries := [], head := "", commits := 0, staged := false, uploaded := false }

/-- C4 counterexample: in a push without force where the initial
`GetRemoteHead` snapshot failed (remote HEAD absent), the re-read head
exists and differs from the snapshot, yet the push does not fail with
`ErrRemoteChanged` — the re-check is skipped entirely (push.go line 112
requires `initialRemoteHead != ""`), and a commit is created. -/
theorem push_remote_changed_cex :
    pushCexOpts.force = false
    ∧ pushCexEnv.remoteHeadAtCheck
        = .ok "1111111111111111111111111111111111111111"
    ∧ "1111111111111111111111111111111111111111" ≠ ""
    ∧ (Syncer.Push idEncrypter pushCexEnv pushCexOpts emptyCache).1
        = .ok { commitHash := "c1", filesUpdated := 0, filesAdded := 1,
                filesDeleted := 0 }
    ∧ (Syncer.Push idEncrypter pushCexEnv pushCexOpts emptyCache).2.commits = 1 := by
  refine ⟨rfl, rfl, by decide, ?_, ?_⟩ <;> rfl

/-- C4 (amended): in a push without force in which the initial snapshot
`H0 = GetRemoteHead` succeeded, if the per-file loop completes with at least
one change and the re-read (performed after staging) returns `H1 ≠ H0`, the
push fails with `ErrRemoteChanged`: the returned state is the staged cache
with no commit created, no upload, and the cache HEAD unchanged. -/
theorem push_remote_changed (e : Encrypter) (env : PushEnv)
    (opts : PushOptions) (cache0 : CacheState)
    (hforce : opts.force = false) (hdry : opts.dryRun = false)
    (h0 : String) (hh0 : env.remoteHeadAtStart = .ok h0) (hne0 : h0 ≠ "")
    (h1 : String) (hh1 : env.remoteHeadAtCheck = .ok h1) (hne : h1 ≠ h0)
    (cache1 : CacheState) (result : PushResult)
    (hloop : pushFiles e env.localFiles opts.dryRun env.files cache0 pushResultInit
      = (cache1, result, none))
    (hcount : ¬(result.filesAdded = 0 ∧ result.filesUpdated = 0
      ∧ result.filesDeleted = 0)) :
    Syncer.Push e env opts cache0
      = (.error .remoteChanged, { cache1 with staged := true })
    ∧ cache1.commits = cache0.commits ∧ cache1.head = cache0.head
    ∧ cache1.uploaded = cache0.uploaded := by
  obtain ⟨hhead, hcommits, -, huploaded⟩ :=
    pushFiles_state e env.localFiles opts.dryRun env.files cache0 pushResultInit
      cache1 result none hloop
  refine ⟨?_, hcommits, hhead, huploaded⟩
  unfold Syncer.Push
  rw [hloop]
  dsimp only
  rw [if_neg hcount, hdry]
  simp only [Bool.false_eq_true, if_false]
  unfold pushHeadCheck pushInitialHead
  rw [hforce, hh0, hh1]
  simp only [Bool.false_eq_true, if_false]
  rw [if_pos ⟨trivial, hne0⟩]
  try dsimp only
  rw [if_pos hne]

/-- Witness for `push_remote_changed`. -/
theorem push_remote_changed_witness :
    Syncer.Push idEncrypter
      { files := ["a"], localFiles := [("a", [1])],
        remoteHeadAtStart := .ok "h0", remoteHeadAtCheck := .ok "h1",
        commitHash := "c1" }
      pushCexOpts emptyCache
      = (.error .remoteChanged,
         { entries := [("a.age", [1])], head := "", commits := 0,
           staged := true, uploaded := false }) := by
  have h := push_remote_changed idEncrypter
    { files := ["a"], localFiles := [("a", [1])],
      remoteHeadAtStart := .ok "h0", remoteHeadAtCheck := .ok "h1",
      commitHash := "c1" }
    pushCexOpts emptyCache rfl rfl "h0" rfl (by decide) "h1" rfl (by decide)
    { entries := [("a.age", [1])], head := "", commits := 0,
      staged := false, uploaded := false }
    { commitHash := "", filesUpdated := 0, filesAdded := 1, filesDeleted := 0 }
    rfl (by simp)
  exact h.1

/-- After a non-dry push has processed a path `f`, the cache working tree
mirrors the local file at `f`: absent locally means absent in the cache, and
present locally means the cache holds a ciphertext decrypting to the local
content. -/
def CacheMatches (e : Encrypter) (lf : FileMap) (entries : FileMap)
    (f : String) : Prop :=
  match FileMap.find lf f with
  | none => FileMap.find entries (f ++ ".age") = none
  | some content =>
    ∃ ct, FileMap.find entries (f ++ ".age") = some ct
      ∧ e.decrypt ct = .ok content
      ∧ (content.length : Int) ≤ MaxEnvFileSize

theorem readEncrypted_error_find {cache : CacheState} {f : String}
    {err : DomainError} (h : Cache.ReadEncrypted cache f = .error err) :
    FileMap.find cache.entries (f ++ ".age") = none := by
  unfold Cache.ReadEncrypted at h
  cases hf : FileMap.find cache.entries (f ++ ".age") with
  | none => rfl
  | some ct =>
    rw [hf] at h
    exact absurd h (by simp)

theorem readEncrypted_ok_find {cache : CacheState} {f : String}
    {ct : List Nat} (h : Cache.ReadEncrypted cache f = .ok ct) :
    FileMap.find cache.entries (f ++ ".age") = some ct := by
  unfold Cache.ReadEncrypted at h
  cases hf : FileMap.find cache.entries (f ++ ".age") with
  | none =>
    rw [hf] at h
    exact absurd h (by simp)
  | some ct' =>
    rw [hf] at h
    dsimp only at h
    cases h
    rfl

theorem pushFile_establishes {e : Encrypter} {lf : FileMap}
    {cache : CacheState} {result : PushResult} {f : String}
    {cache' : CacheState} {result' : PushResult}
    (hrt : ∀ b ct, e.encrypt b = .ok ct → e.decrypt ct = .ok b)
    (h : pushFile e lf false cache result f = .ok (cache', result')) :
    CacheMatches e lf cache'.entries f := by
  unfold pushFile at h
  unfold CacheMatches
  cases hlf : FileMap.find lf f with
  | none =>
    rw [if_pos (by simp [Discovery.FileExists, hlf])] at h
    cases hre : Cache.ReadEncrypted cache f with
    | ok ct =>
      rw [hre] at h
      dsimp only at h
      simp only [Except.ok.injEq, Prod.mk.injEq] at h
      rw [← h.1]
      exact FileMap.find_erase_self cache.entries (f ++ ".age")
    | error err =>
      rw [hre] at h
      dsimp only at h
      simp only [Except.ok.injEq, Prod.mk.injEq] at h
      rw [← h.1]
      exact readEncrypted_error_find hre
  | some raw =>
    rw [if_neg (by simp [Discovery.FileExists, hlf])] at h
    cases hrf : Discovery.ReadFile lf f with
    | error err =>
      rw [hrf] at h
      exact absurd h (by simp)
    | ok content =>
      obtain ⟨hfind, hlen⟩ := readFile_ok_inv hrf
      have hcr : raw = content := by
        rw [hlf] at hfind
        exact (Option.some.injEq _ _ ▸ hfind)
      subst hcr
      rw [hrf] at h
      dsimp only at h
      cases hre : Cache.ReadEncrypted cache f with
      | ok existingEncrypted =>
        rw [hre] at h
        dsimp only at h
        cases hdec : e.decrypt existingEncrypted with
        | error err =>
          rw [hdec] at h
          exact absurd h (by simp)
        | ok existingDecrypted =>
          rw [hdec] at h
          dsimp only at h
          by_cases heq : existingDecrypted = raw
          · rw [if_pos heq] at h
            simp only [Except.ok.injEq, Prod.mk.injEq] at h
            rw [← h.1]
            refine ⟨existingEncrypted, readEncrypted_ok_find hre, ?_, hlen⟩
            rw [hdec, heq]
          · rw [if_neg heq] at h
            simp only [Bool.false_eq_true, if_false] at h
            cases henc : e.encrypt raw with
            | error err =>
              rw [henc] at h
              exact absurd h (by simp)
            | ok encrypted =>
              rw [henc] at h
              dsimp only at h
              simp only [Except.ok.injEq, Prod.mk.injEq] at h
              rw [← h.1]
              exact ⟨encrypted, FileMap.find_insert_self _ _ _,
                hrt raw encrypted henc, hlen⟩
      | error err =>
        rw [hre] at h
        dsimp only at h
        simp only [Bool.false_eq_true, if_false] at h
        cases henc : e.encrypt raw with
        | error err' =>
          rw [henc] at h
          exact absurd h (by simp)
        | ok encrypted =>
          rw [henc] at h
          dsimp only at h
          simp only [Except.ok.injEq, Prod.mk.injEq] at h
          rw [← h.1]
          exact ⟨encrypted, FileMap.find_insert_self _ _ _,
            hrt raw encrypted henc, hlen⟩

theorem pushFile_preserves {e : Encrypter} {lf : FileMap} {dr : Bool}
    {cache : CacheState} {result : PushResult} {g f : String}
    {cache' : CacheState} {result' : PushResult}
    (hrt : ∀ b ct, e.encrypt b = .ok ct → e.decrypt ct = .ok b)
    (hdr : dr = false)
    (h : pushFile e lf dr cache result g = .ok (cache', result'))
    (hm : CacheMatches e lf cache.entries f) :
    CacheMatches e lf cache'.entries f := by
  by_cases hgf : g = f
  · subst hgf
    subst hdr
    exact pushFile_establishes hrt h
  · have hkey : f ++ ".age" ≠ g ++ ".age" := fun hk => hgf (age_key_inj hk).symm
    have hfind := (pushFile_state h).2.2.2.2 (f ++ ".age") hkey
    unfold CacheMatches at hm ⊢
    cases hlf : FileMap.find lf f with
    | none => rw [hlf] at hm; rw [hfind]; exact hm
    | some content =>
      rw [hlf] at hm
      obtain ⟨ct, hct, hdec, hlen⟩ := hm
      exact ⟨ct, hfind.trans hct, hdec, hlen⟩

theorem pushFiles_preserves (e : Encrypter) (lf : FileMap)
    (hrt : ∀ b ct, e.encrypt b = .ok ct → e.decrypt ct = .ok b)
    (files : List String) :
    ∀ cache result cache' result' (f : String),
    pushFiles e lf false files cache result = (cache', result', none) →
    CacheMatches e lf cache.entries f →
    CacheMatches e lf cache'.entries f := by
  induction files with
  | nil =>
    intro cache result cache' result' f h hm
    cases h
    exact hm
  | cons g rest ih =>
    intro cache result cache' result' f h hm
    unfold pushFiles at h
    cases hg : pushFile e lf false cache result g with
    | error err => rw [hg] at h; exact absurd h (by simp)
    | ok st =>
      obtain ⟨cm, rm⟩ := st
      rw [hg] at h
      exact ih cm rm cache' result' f h (pushFile_preserves hrt rfl hg hm)

theorem pushFiles_establishes (e : Encrypter) (lf : FileMap)
    (hrt : ∀ b ct, e.encrypt b = .ok ct → e.decrypt ct = .ok b)
    (files : List String) :
    ∀ cache result cache' result',
    pushFiles e lf false files cache result = (cache', result', none) →
    ∀ f ∈ files, CacheMatches e lf cache'.entries f := by
  induction files with
  | nil =>
    intro cache result cache' result' h f hf
    exact absurd hf (List.not_mem_nil f)
  | cons g rest ih =>
    intro cache result cache' result' h f hf
    unfold pushFiles at h
    cases hg : pushFile e lf false cache result g with
    | error err => rw [hg] at h; exact absurd h (by simp)
    | ok st =>
      obtain ⟨cm, rm⟩ := st
      rw [hg] at h
      rcases List.mem_cons.mp hf with hfg | hfr
      · subst hfg
        exact pushFiles_preserves e lf hrt rest cm rm cache' result' f h
          (pushFile_establishes hrt hg)
      · exact ih cm rm cache' result' h f hfr

theorem pushFiles_all_unchanged (e : Encrypter) (lf : FileMap) (dr : Bool)
    (files : List String) :
    ∀ cache result,
    (∀ f ∈ files, CacheMatches e lf cache.entries f) →
    pushFiles e lf dr files cache result = (cache, result, none) := by
  induction files with
  | nil => intro cache result _; rfl
  | cons g rest ih =>
    intro cache result hinv
    have hg := hinv g (List.mem_cons_self g rest)
    have hstep : pushFile e lf dr cache result g = .ok (cache, result) := by
      unfold CacheMatches at hg
      cases hlf : FileMap.find lf g with
      | none =>
        rw [hlf] at hg
        unfold pushFile
        rw [if_pos (by simp [Discovery.FileExists, hlf])]
        have hre : Cache.ReadEncrypted cache g = .error .fileNotFound := by
          unfold Cache.ReadEncrypted
          rw [hg]
        rw [hre]
      | some content =>
        rw [hlf] at hg
        obtain ⟨ct, hct, hdec, hlen⟩ := hg
        unfold pushFile
        rw [if_neg (by simp [Discovery.FileExists, hlf])]
        rw [readFile_ok_of lf g content hlf hlen]
        dsimp only
        have hre : Cache.ReadEncrypted cache g = .ok ct := by
          unfold Cache.ReadEncrypted
          rw [hct]
        rw [hre]
        dsimp only
        rw [hdec]
        dsimp only
        rw [if_pos rfl]
    unfold pushFiles
    rw [hstep]
    exact ih cache result (fun f hf => hinv f (List.mem_cons_of_mem g hf))

theorem pushHeadCheck_outcomes (env : PushEnv) (opts : PushOptions)
    (i : String) (r : PushResult) (c : CacheState) :
    pushHeadCheck env opts i r c = (.error .remoteChanged, c)
    ∨ pushHeadCheck env opts i r c = pushCommit env r c := by
  unfold pushHeadCheck
  split
  · split
    · split
      · exact Or.inl rfl
      · exact Or.inr rfl
    · exact Or.inr rfl
  · exact Or.inr rfl

/-- Inverts a successful non-dry `Syncer.Push`: the loop completed with a
non-zero change count and the final cache is the loop cache, staged,
committed and uploaded. -/
theorem push_ok_inv {e : Encrypter} {env : PushEnv} {opts : PushOptions}
    {cache0 cache1 : CacheState} {r1 : PushResult}
    (hdry : opts.dryRun = false)
    (h : Syncer.Push e env opts cache0 = (.ok r1, cache1)) :
    ∃ cacheL result,
      pushFiles e env.localFiles opts.dryRun env.files cache0 pushResultInit
        = (cacheL, result, none)
      ∧ cache1.entries = cacheL.entries := by
  unfold Syncer.Push at h
  rcases hpf : pushFiles e env.localFiles opts.dryRun env.files cache0
      pushResultInit with ⟨cacheL, result, err⟩
  rw [hpf] at h
  dsimp only at h
  cases err with
  | some err' => exact absurd h (by simp)
  | none =>
    refine ⟨cacheL, result, rfl, ?_⟩
    dsimp only at h
    by_cases hc : result.filesAdded = 0 ∧ result.filesUpdated = 0
        ∧ result.filesDeleted = 0
    · rw [if_pos hc] at h
      exact absurd h (by simp)
    · rw [if_neg hc] at h
      rw [hdry] at h
      simp only [Bool.false_eq_true, if_false] at h
      rcases pushHeadCheck_outcomes env opts _ result { cacheL with staged := true }
          with hout | hout
      · rw [hout] at h
        exact absurd h (by simp)
      · rw [hout] at h
        simp only [pushCommit, Prod.mk.injEq] at h
        rw [← h.2]

theorem push_eq_of_loop {e : Encrypter} {env : PushEnv} {opts : PushOptions}
    {cache0 cache1 : CacheState} {result : PushResult}
    (hloop : pushFiles e env.localFiles opts.dryRun env.files cache0 pushResultInit
      = (cache1, result, none)) :
    Syncer.Push e env opts cache0
      = if result.filesAdded = 0 ∧ result.filesUpdated = 0
            ∧ result.filesDeleted = 0 then
          (.error .nothingToCommit, cache1)
        else if opts.dryRun then (.ok result, cache1)
        else pushHeadCheck env opts (pushInitialHead env opts) result
          { cache1 with staged := true } := by
  unfold Syncer.Push
  rw [hloop]

/-- C5: `Syncer.Push` returns the `ErrNothingToCommit` error exactly when the
per-file classification loop completes with all of the Added, Updated and
Deleted counts zero, in which case nothing is staged, committed or uploaded;
and an immediate second push (same tracked files, same local contents) after
a successful non-dry push returns `ErrNothingToCommit`. -/
theorem push_nothing_to_commit :
    (∀ (e : Encrypter) (env : PushEnv) (opts : PushOptions)
        (cache0 cache1 : CacheState) (result : PushResult),
      pushFiles e env.localFiles opts.dryRun env.files cache0 pushResultInit
          = (cache1, result, none) →
      (((Syncer.Push e env opts cache0).1 = .error .nothingToCommit)
        ↔ (result.filesAdded = 0 ∧ result.filesUpdated = 0
            ∧ result.filesDeleted = 0))
      ∧ ((result.filesAdded = 0 ∧ result.filesUpdated = 0
            ∧ result.filesDeleted = 0) →
          Syncer.Push e env opts cache0 = (.error .nothingToCommit, cache1)
          ∧ cache1.staged = cache0.staged ∧ cache1.commits = cache0.commits
          ∧ cache1.uploaded = cache0.uploaded))
    ∧ (∀ (e : Encrypter),
        (∀ b ct, e.encrypt b = .ok ct → e.decrypt ct = .ok b) →
        ∀ (env env₂ : PushEnv) (opts opts₂ : PushOptions)
          (cache0 cache1 : CacheState) (r1 : PushResult),
        env₂.files = env.files → env₂.localFiles = env.localFiles →
        opts.dryRun = false →
        Syncer.Push e env opts cache0 = (.ok r1, cache1) →
        (Syncer.Push e env₂ opts₂ cache1).1 = .error .nothingToCommit) := by
  constructor
  · intro e env opts cache0 cache1 result hloop
    have heq := push_eq_of_loop hloop
    constructor
    · constructor
      · intro hret
        by_contra hc
        rw [heq, if_neg hc] at hret
        by_cases hdr : opts.dryRun = true
        · rw [if_pos hdr] at hret
          exact absurd hret (by simp)
        · rw [if_neg hdr] at hret
          rcases pushHeadCheck_outcomes env opts (pushInitialHead env opts)
              result { cache1 with staged := true } with hout | hout
          · rw [hout] at hret
            exact absurd hret (by simp)
          · rw [hout] at hret
            exact absurd hret (by simp [pushCommit])
      · intro hc
        rw [heq, if_pos hc]
    · intro hc
      obtain ⟨hh, hcm, hst, hup⟩ :=
        pushFiles_state e env.localFiles opts.dryRun env.files cache0
          pushResultInit cache1 result none hloop
      exact ⟨by rw [heq, if_pos hc], hst, hcm, hup⟩
  · intro e hrt env env₂ opts opts₂ cache0 cache1 r1 hfiles hlocal hdry hp1
    obtain ⟨cacheL, result, hloop1, hentries⟩ := push_ok_inv hdry hp1
    rw [hdry] at hloop1
    have hinv : ∀ f ∈ env₂.files, CacheMatches e env₂.localFiles cache1.entries f := by
      intro f hf
      rw [hfiles] at hf
      rw [hlocal, hentries]
      exact pushFiles_establishes e env.localFiles hrt env.files cache0
        pushResultInit cacheL result hloop1 f hf
    have hloop2 : pushFiles e env₂.localFiles opts₂.dryRun env₂.files cache1
        pushResultInit = (cache1, pushResultInit, none) :=
      pushFiles_all_unchanged e env₂.localFiles opts₂.dryRun env₂.files cache1
        pushResultInit hinv
    rw [push_eq_of_loop hloop2, if_pos ⟨rfl, rfl, rfl⟩]

/-- Environment of the `push_nothing_to_commit` witness (first part): one
tracked file that exists neither locally nor in the cache. -/
def envNothing : PushEnv :=
  { files := ["a"]
    localFiles := []
    remoteHeadAtStart := .error .fileNotFound
    remoteHeadAtCheck := .error .fileNotFound
    commitHash := "c1" }

/-- Environment of the `push_nothing_to_commit` witness (second part). -/
def envOneFile : PushEnv :=
  { files := ["a"]
    localFiles := [("a", [1])]
    remoteHeadAtStart := .error .fileNotFound
    remoteHeadAtCheck := .error .fileNotFound
    commitHash := "c1" }

def forceOpts : PushOptions :=
  { message := "", dryRun := false, force := true }

/-- The cache state after the first successful push of `envOneFile`. -/
def cacheAfterOne : CacheState :=
  { entries := [("a.age", [1])], head := "c1", commits := 1,
    staged := true, uploaded := true }

/-- Witness for `push_nothing_to_commit`. -/
theorem push_nothing_to_commit_witness :
    Syncer.Push idEncrypter envNothing pushCexOpts emptyCache
      = (.error .nothingToCommit, emptyCache)
    ∧ (Syncer.Push idEncrypter envOneFile forceOpts cacheAfterOne).1
      = .error .nothingToCommit := by
  constructor
  · exact ((push_nothing_to_commit.1 idEncrypter envNothing pushCexOpts
      emptyCache emptyCache pushResultInit rfl).2 ⟨rfl, rfl, rfl⟩).1
  · exact push_nothing_to_commit.2 idEncrypter
      (fun b ct h => by cases h; rfl)
      envOneFile envOneFile forceOpts forceOpts emptyCache cacheAfterOne
      { commitHash := "c1", filesUpdated := 0, filesAdded := 1, filesDeleted := 0 }
      rfl rfl rfl rfl

/-! ## Pull (`internal/sync/pull.go`, `Cache.SyncFromStorage`)

The remote listing is a list of key/blob pairs with keys relative to the
repository namespace `<owner>/<name>/` (the prefix `SyncFromStorage` strips).
Per-object download-size limiting and path validation of `SyncFromStorage`
are not modelled (the claims under study do not concern them); downloads are
assumed well-formed.  `ConflictAction` and the resolver-bearing pull options
are declared in `internal/sync` (their declaration file is referenced by
`pull.go` and its tests). -/

/-- `sync.ConflictAction`: a conflict resolver's verdict for one file. -/
inductive ConflictAction where
  | overwrite
  | skip
  | abort
  deriving DecidableEq, Repr

/-- `sync.PullOptions`. -/
structure PullOptions where
  ref : String
  force : Bool
  dryRun : Bool
  conflictResolver : Option (String → Except DomainError ConflictAction)

/-- `domain.PullResult`. -/
structure PullResult where
  filesUpdated : Nat
  filesCreated : Nat
  filesSkipped : Nat
  filesSkippedConflict : Nat
  ref : String
  filesWithConflicts : List String
  deriving DecidableEq, Repr

/-- The `fileToWrite` record of `Syncer.Pull`'s first pass. -/
structure FileToWrite where
  file : String
  decrypted : List Nat
  isNew : Bool
  deriving DecidableEq, Repr

/-- Ambient inputs of a pull: tracked files, whether the remote exists, the
remote listing, the cache content `Checkout` would produce at a ref, and the
cache `Head()`. -/
structure PullEnv where
  files : List String
  remoteExists : Bool
  remote : List (String × List Nat)
  atRef : String → Except DomainError FileMap
  head : String

/-- `SyncFromStorage` skips remote paths ending in `/HEAD`; relative to the
stripped prefix `<owner>/<name>/`, those are exactly `HEAD` and keys ending
in `/HEAD`. -/
def isHeadKey (k : String) : Bool :=
  k = "HEAD" || List.isSuffixOf "/HEAD".data k.data

/-- `Cache.SyncFromStorage` (cache.go): download every listed object except
HEAD pointers into the cache working tree, overwriting. -/
def syncFromStorage (remote : List (String × List Nat)) (c : FileMap) :
    FileMap :=
  match remote with
  | [] => c
  | (k, v) :: rest =>
    if isHeadKey k then syncFromStorage rest c
    else syncFromStorage rest (FileMap.insert c k v)

/-- The ref-selection step of `Syncer.Pull` (pull.go lines 31–42): check out
the pinned ref when one is given (the working tree becomes the ref's
content), otherwise keep the synced tree and report `Head()`. -/
def pullCheckout (env : PullEnv) (opts : PullOptions) (cache1 : FileMap) :
    Except DomainError (FileMap × String) :=
  if opts.ref ≠ "" then
    match env.atRef opts.ref with
    | .error err => .error err
    | .ok cacheR => .ok (cacheR, opts.ref)
  else .ok (cache1, env.head)

/-- The zero `PullResult` carrying the pulled ref. -/
def pullInit (ref : String) : PullResult :=
  { filesUpdated := 0, filesCreated := 0, filesSkipped := 0,
    filesSkippedConflict := 0, ref := ref, filesWithConflicts := [] }

/-- First pass of `Syncer.Pull` (pull.go lines 58–92): for each tracked file
present in the cache, decrypt it and classify it against the local file;
absent cache entries are skipped, unchanged files counted, and differing or
missing local files queued for writing (differing ones also recorded as
conflicts). -/
def pullClassify (e : Encrypter) (lf : FileMap) (cache : FileMap) :
    List String → PullResult → List FileToWrite →
    Except DomainError (PullResult × List FileToWrite)
  | [], result, ftw => .ok (result, ftw)
  | f :: rest, result, ftw =>
    match FileMap.find cache (f ++ ".age") with
    | none => pullClassify e lf cache rest result ftw
    | some encrypted =>
      match e.decrypt encrypted with
      | .error err => .error err
      | .ok decrypted =>
        match Discovery.ReadFile lf f with
        | .ok existing =>
          if existing = decrypted then
            pullClassify e lf cache rest
              { result with filesSkipped := result.filesSkipped + 1 } ftw
          else
            pullClassify e lf cache rest
              { result with
                  filesWithConflicts := result.filesWithConflicts ++ [f] }
              (ftw ++ [⟨f, decrypted, false⟩])
        | .error _ =>
          pullClassify e lf cache rest result (ftw ++ [⟨f, decrypted, true⟩])

/-- The resolver loop of `Syncer.Pull` (pull.go lines 101–118): ask the
resolver about each conflicting file; `Abort` cancels the pull, `Skip`
collects the file, `Overwrite` proceeds. -/
def resolveConflicts (resolver : String → Except DomainError ConflictAction) :
    List String → List String → Except DomainError (List String)
  | [], skips => .ok skips
  | f :: rest, skips =>
    match resolver f with
    | .error err => .error err
    | .ok .abort => .error .userCancelled
    | .ok .skip => resolveConflicts resolver rest (skips ++ [f])
    | .ok .overwrite => resolveConflicts resolver rest skips

/-- The skip filter of `Syncer.Pull` (pull.go lines 120–129): drop queued
writes whose file was resolved as `Skip`, counting them. -/
def filterSkips (skips : List String) :
    List FileToWrite → PullResult → List FileToWrite × PullResult
  | [], result => ([], result)
  | x :: rest, result =>
    if x.file ∈ skips then
      filterSkips skips rest
        { result with filesSkippedConflict := result.filesSkippedConflict + 1 }
    else
      (x :: (filterSkips skips rest result).1,
       (filterSkips skips rest result).2)

/-- The dry-run counting pass of `Syncer.Pull` (pull.go lines 134–142). -/
def pullCountOnly : List FileToWrite → PullResult → PullResult
  | [], result => result
  | x :: rest, result =>
    pullCountOnly rest
      (if x.isNew then { result with filesCreated := result.filesCreated + 1 }
       else { result with filesUpdated := result.filesUpdated + 1 })

/-- The write pass of `Syncer.Pull` (pull.go lines 145–156): write each
queued file to the project tree (`Discovery.WriteFile`, modelled as
succeeding) and count it. -/
def pullWrite : List FileToWrite → FileMap → PullResult → FileMap × PullResult
  | [], lf, result => (lf, result)
  | x :: rest, lf, result =>
    pullWrite rest (FileMap.insert lf x.file x.decrypted)
      (if x.isNew then { result with filesCreated := result.filesCreated + 1 }
       else { result with filesUpdated := result.filesUpdated + 1 })

/-- Conflict resolution combined with the skip filter (pull.go lines
101–131): on success the surviving writes and the updated result, with the
conflict list cleared. -/
def pullResolve (resolver : String → Except DomainError ConflictAction)
    (result : PullResult) (ftw : List FileToWrite) :
    Except DomainError (PullResult × List FileToWrite) :=
  match resolveConflicts resolver result.filesWithConflicts [] with
  | .error err => .error err
  | .ok skips =>
    .ok ({ (filterSkips skips ftw result).2 with filesWithConflicts := [] },
         (filterSkips skips ftw result).1)

/-- The tail of `Syncer.Pull` (pull.go lines 133–163): count only in a dry
run, otherwise run the write pass; with `--force` the conflict list is
cleared in the returned result. -/
def pullFinish (opts : PullOptions) (lf cache : FileMap)
    (ftw : List FileToWrite) (result : PullResult) :
    Except DomainError PullResult × FileMap × FileMap :=
  if opts.dryRun then (.ok (pullCountOnly ftw result), lf, cache)
  else
    (.ok (if opts.force
          then { (pullWrite ftw lf result).2 with filesWithConflicts := [] }
          else (pullWrite ftw lf result).2),
     (pullWrite ftw lf result).1, cache)

/-- `Syncer.Pull` (pull.go): require the remote to exist, sync the cache from
storage, select the ref, classify every tracked file, handle conflicts
(abort with `ErrConflict` when any conflict exists without force, dry run or
resolver), then count or write.  Returns the outcome together with the final
local working tree and cache working tree. -/
def Syncer.Pull (e : Encrypter) (env : PullEnv) (opts : PullOptions)
    (lf : FileMap) (cache0 : FileMap) :
    Except DomainError PullResult × FileMap × FileMap :=
  if env.remoteExists = false then (.error .repoNotFound, lf, cache0)
  else
    match pullCheckout env opts (syncFromStorage env.remote cache0) with
    | .error err => (.error err, lf, syncFromStorage env.remote cache0)
    | .ok (cache2, refUsed) =>
      match pullClassify e lf cache2 env.files (pullInit refUsed) [] with
      | .error err => (.error err, lf, cache2)
      | .ok (result, ftw) =>
        if result.filesWithConflicts ≠ [] ∧ opts.force = false
            ∧ opts.dryRun = false then
          match opts.conflictResolver with
          | none => (.error .conflict, lf, cache2)
          | some resolver =>
            match pullResolve resolver result ftw with
            | .error err => (.error err, lf, cache2)
            | .ok (result3, ftw2) => pullFinish opts lf cache2 ftw2 result3
        else pullFinish opts lf cache2 ftw result

/-- C9: a pull without force and not a dry run that detects at least one
conflicting file and has no conflict resolver aborts with the `ErrConflict`
error, returning before the write pass: the local working tree is exactly
the one it was called with. -/
theorem pull_conflict_abort (e : Encrypter) (env : PullEnv)
    (opts : PullOptions) (lf cache0 cache2 : FileMap) (refUsed : String)
    (result : PullResult) (ftw : List FileToWrite)
    (hforce : opts.force = false) (hdry : opts.dryRun = false)
    (hres : opts.conflictResolver = none)
    (hremote : env.remoteExists = true)
    (hco : pullCheckout env opts (syncFromStorage env.remote cache0)
      = .ok (cache2, refUsed))
    (hcl : pullClassify e lf cache2 env.files (pullInit refUsed) []
      = .ok (result, ftw))
    (hconf : result.filesWithConflicts ≠ []) :
    Syncer.Pull e env opts lf cache0 = (.error .conflict, lf, cache2) := by
  unfold Syncer.Pull
  rw [hremote]
  simp only [Bool.true_eq_false, if_false]
  rw [hco]
  try dsimp only
  rw [hcl]
  try dsimp only
  rw [if_pos ⟨hconf, hforce, hdry⟩, hres]

/-- The pull environment used as concrete input: one tracked file `a`, one
remote blob whose plaintext `[2]` differs from the local `[1]`. -/
def pullCexEnv : PullEnv :=
  { files := ["a"]
    remoteExists := true
    remote := [("a.age", [2])]
    atRef := fun _ => .ok []
    head := "h" }

def pullAbortOpts : PullOptions :=
  { ref := "", force := false, dryRun := false, conflictResolver := none }

/-- Witness for `pull_conflict_abort`. -/
theorem pull_conflict_abort_witness :
    Syncer.Pull idEncrypter pullCexEnv pullAbortOpts [("a", [1])] []
      = (.error .conflict, [("a", [1])], [("a.age", [2])]) := by
  exact pull_conflict_abort idEncrypter pullCexEnv pullAbortOpts
    [("a", [1])] [] [("a.age", [2])] "h"
    { filesUpdated := 0, filesCreated := 0, filesSkipped := 0,
      filesSkippedConflict := 0, ref := "h", filesWithConflicts := ["a"] }
    [⟨"a", [2], false⟩]
    rfl rfl rfl rfl rfl rfl (by simp)

/-- Pull options with a resolver that skips every conflict. -/
def pullSkipOpts : PullOptions :=
  { ref := "", force := false, dryRun := false,
    conflictResolver := some (fun _ => .ok .skip) }

/-- Result of pulling `pullCexEnv` with the skip-all resolver. -/
def pullCexR1 : PullResult :=
  { filesUpdated := 0, filesCreated := 0, filesSkipped := 0,
    filesSkippedConflict := 1, ref := "h", filesWithConflicts := [] }

/-- C7 counterexample: a pull that resolves its one conflict by `Skip`
succeeds, yet immediately repeating it does not classify every tracked file
as `Unchanged` — the repeat again classifies the file as a conflict
(`filesSkippedConflict = 1`, `filesSkipped = 0`), exactly as the first run
did. -/
theorem pull_idempotent_cex :
    Syncer.Pull idEncrypter pullCexEnv pullSkipOpts [("a", [1])] []
      = (.ok pullCexR1, [("a", [1])], [("a.age", [2])])
    ∧ Syncer.Pull idEncrypter pullCexEnv pullSkipOpts [("a", [1])]
        [("a.age", [2])]
      = (.ok pullCexR1, [("a", [1])], [("a.age", [2])])
    ∧ pullCexR1.filesSkippedConflict = 1
    ∧ pullCexR1.filesSkipped = 0 :=
  ⟨rfl, rfl, rfl, rfl⟩

def mergeOpt (a b : Option (List Nat)) : Option (List Nat) :=
  match a with
  | some v => some v
  | none => b

/-- The last non-HEAD value the remote listing holds for key `k`. -/
def syncLast (k : String) : List (String × List Nat) → Option (List Nat)
  | [] => none
  | (k', v) :: rest =>
    mergeOpt (syncLast k rest)
      (if isHeadKey k' = false ∧ k' = k then some v else none)

theorem syncFromStorage_find (remote : List (String × List Nat)) :
    ∀ c k, FileMap.find (syncFromStorage remote c) k
      = mergeOpt (syncLast k remote) (FileMap.find c k) := by
  induction remote with
  | nil => intro c k; rfl
  | cons kv rest ih =>
    intro c k
    obtain ⟨k', v⟩ := kv
    unfold syncFromStorage syncLast
    by_cases hh : isHeadKey k' = true
    · rw [if_pos hh, ih]
      rw [if_neg (fun hc => by rw [hh] at hc; exact absurd hc.1 (by simp))]
      cases syncLast k rest <;> rfl
    · have hh' : isHeadKey k' = false := by
        cases hq : isHeadKey k'
        · rfl
        · exact absurd hq hh
      rw [if_neg hh, ih]
      by_cases hk : k' = k
      · subst hk
        rw [FileMap.find_insert_self, if_pos ⟨hh', rfl⟩]
        cases syncLast k' rest <;> rfl
      · rw [FileMap.find_insert_ne _ _ _ _ hk,
          if_neg (fun hc => hk hc.2)]
        cases syncLast k rest <;> rfl

theorem mergeOpt_self (a b : Option (List Nat)) :
    mergeOpt a (mergeOpt a b) = mergeOpt a b := by
  cases a <;> rfl

theorem syncFromStorage_idem_find (remote : List (String × List Nat))
    (c : FileMap) (k : String) :
    FileMap.find (syncFromStorage remote (syncFromStorage remote c)) k
      = FileMap.find (syncFromStorage remote c) k := by
  rw [syncFromStorage_find, syncFromStorage_find]
  exact mergeOpt_self _ _

theorem pullClassify_congr (e : Encrypter) (lf cacheX cacheY : FileMap)
    (hxy : ∀ k, FileMap.find cacheX k = FileMap.find cacheY k) :
    ∀ files r ftw, pullClassify e lf cacheX files r ftw
      = pullClassify e lf cacheY files r ftw := by
  intro files
  induction files with
  | nil => intro r ftw; rfl
  | cons f rest ih =>
    intro r ftw
    unfold pullClassify
    rw [hxy (f ++ ".age")]
    cases FileMap.find cacheY (f ++ ".age") with
    | none => exact ih r ftw
    | some encrypted =>
      dsimp only
      cases e.decrypt encrypted with
      | error err => rfl
      | ok decrypted =>
        dsimp only
        cases Discovery.ReadFile lf f with
        | ok existing =>
          dsimp only
          by_cases hex : existing = decrypted
          · rw [if_pos hex, if_pos hex]
            exact ih _ ftw
          · rw [if_neg hex, if_neg hex]
            exact ih _ _
        | error err => exact ih r _

theorem pullClassify_fields (e : Encrypter) (lf cache : FileMap) :
    ∀ files r ftw r' ftw',
    pullClassify e lf cache files r ftw = .ok (r', ftw') →
    r'.filesCreated = r.filesCreated ∧ r'.filesUpdated = r.filesUpdated
    ∧ r'.filesSkippedConflict = r.filesSkippedConflict ∧ r'.ref = r.ref := by
  intro files
  induction files with
  | nil =>
    intro r ftw r' ftw' h
    unfold pullClassify at h
    cases h
    exact ⟨rfl, rfl, rfl, rfl⟩
  | cons f rest ih =>
    intro r ftw r' ftw' h
    unfold pullClassify at h
    cases hfind : FileMap.find cache (f ++ ".age") with
    | none =>
      rw [hfind] at h
      exact ih r ftw r' ftw' h
    | some encrypted =>
      rw [hfind] at h
      dsimp only at h
      cases hdec : e.decrypt encrypted with
      | error err =>
        rw [hdec] at h
        exact absurd h (by simp)
      | ok decrypted =>
        rw [hdec] at h
        dsimp only at h
        cases hrf : Discovery.ReadFile lf f with
        | ok existing =>
          rw [hrf] at h
          dsimp only at h
          by_cases hex : existing = decrypted
          · rw [if_pos hex] at h
            have hh := ih _ ftw r' ftw' h
            exact hh
          · rw [if_neg hex] at h
            have hh := ih _ _ r' ftw' h
            exact hh
        | error err =>
          rw [hrf] at h
          dsimp only at h
          exact ih r _ r' ftw' h

theorem pullClassify_mono (e : Encrypter) (lf cache : FileMap) :
    ∀ files r ftw r' ftw',
    pullClassify e lf cache files r ftw = .ok (r', ftw') →
    ∀ x ∈ ftw, x ∈ ftw' := by
  intro files
  induction files with
  | nil =>
    intro r ftw r' ftw' h
    unfold pullClassify at h
    cases h
    exact fun x hx => hx
  | cons f rest ih =>
    intro r ftw r' ftw' h
    unfold pullClassify at h
    cases hfind : FileMap.find cache (f ++ ".age") with
    | none =>
      rw [hfind] at h
      exact ih r ftw r' ftw' h
    | some encrypted =>
      rw [hfind] at h
      dsimp only at h
      cases hdec : e.decrypt encrypted with
      | error err =>
        rw [hdec] at h
        exact absurd h (by simp)
      | ok decrypted =>
        rw [hdec] at h
        dsimp only at h
        cases hrf : Discovery.ReadFile lf f with
        | ok existing =>
          rw [hrf] at h
          dsimp only at h
          by_cases hex : existing = decrypted
          · rw [if_pos hex] at h
            exact ih _ ftw r' ftw' h
          · rw [if_neg hex] at h
            intro x hx
            exact ih _ _ r' ftw' h x (List.mem_append_left _ hx)
        | error err =>
          rw [hrf] at h
          dsimp only at h
          intro x hx
          exact ih r _ r' ftw' h x (List.mem_append_left _ hx)

/-- Every queued write of a classification pass decrypts from the cache
entry of its own file. -/
def FtwInv (e : Encrypter) (cache : FileMap) (x : FileToWrite) : Prop :=
  ∃ enc, FileMap.find cache (x.file ++ ".age") = some enc
    ∧ e.decrypt enc = .ok x.decrypted

theorem pullClassify_post (e : Encrypter) (lf cache : FileMap) :
    ∀ files r ftw r' ftw',
    pullClassify e lf cache files r ftw = .ok (r', ftw') →
    (∀ x ∈ ftw, FtwInv e cache x) →
    (∀ x ∈ ftw', FtwInv e cache x)
    ∧ ∀ f ∈ files, ∀ enc, FileMap.find cache (f ++ ".age") = some enc →
        ∃ d, e.decrypt enc = .ok d
          ∧ (FileMap.find lf f = some d ∨ ∃ x ∈ ftw', x.file = f) := by
  intro files
  induction files with
  | nil =>
    intro r ftw r' ftw' h hinv
    unfold pullClassify at h
    cases h
    exact ⟨hinv, fun f hf => absurd hf (List.not_mem_nil f)⟩
  | cons f rest ih =>
    intro r ftw r' ftw' h hinv
    unfold pullClassify at h
    cases hfind : FileMap.find cache (f ++ ".age") with
    | none =>
      rw [hfind] at h
      obtain ⟨h1, h2⟩ := ih r ftw r' ftw' h hinv
      refine ⟨h1, fun g hg enc henc => ?_⟩
      rcases List.mem_cons.mp hg with hgf | hgr
      · subst hgf
        rw [hfind] at henc
        exact absurd henc (by simp)
      · exact h2 g hgr enc henc
    | some encrypted =>
      rw [hfind] at h
      dsimp only at h
      cases hdec : e.decrypt encrypted with
      | error err =>
        rw [hdec] at h
        exact absurd h (by simp)
      | ok decrypted =>
        rw [hdec] at h
        dsimp only at h
        cases hrf : Discovery.ReadFile lf f with
        | ok existing =>
          rw [hrf] at h
          dsimp only at h
          by_cases hex : existing = decrypted
          · rw [if_pos hex] at h
            obtain ⟨h1, h2⟩ := ih _ ftw r' ftw' h hinv
            refine ⟨h1, fun g hg enc henc => ?_⟩
            rcases List.mem_cons.mp hg with hgf | hgr
            · subst hgf
              rw [hfind] at henc
              cases henc
              refine ⟨decrypted, hdec, Or.inl ?_⟩
              rw [← hex]
              exact (readFile_ok_inv hrf).1
            · exact h2 g hgr enc henc
          · rw [if_neg hex] at h
            have hinv' : ∀ x ∈ ftw ++ [⟨f, decrypted, false⟩],
                FtwInv e cache x := by
              intro x hx
              rcases List.mem_append.mp hx with hx1 | hx2
              · exact hinv x hx1
              · rw [List.mem_singleton.mp hx2]
                exact ⟨encrypted, hfind, hdec⟩
            obtain ⟨h1, h2⟩ := ih _ _ r' ftw' h hinv'
            refine ⟨h1, fun g hg enc henc => ?_⟩
            rcases List.mem_cons.mp hg with hgf | hgr
            · subst hgf
              rw [hfind] at henc
              cases henc
              refine ⟨decrypted, hdec, Or.inr ?_⟩
              refine ⟨⟨g, decrypted, false⟩, ?_, rfl⟩
              exact pullClassify_mono e lf cache rest _ _ r' ftw' h _
                (List.mem_append_right _ (List.mem_singleton_self _))
            · exact h2 g hgr enc henc
        | error err =>
          rw [hrf] at h
          dsimp only at h
          have hinv' : ∀ x ∈ ftw ++ [⟨f, decrypted, true⟩],
              FtwInv e cache x := by
            intro x hx
            rcases List.mem_append.mp hx with hx1 | hx2
            · exact hinv x hx1
            · rw [List.mem_singleton.mp hx2]
              exact ⟨encrypted, hfind, hdec⟩
          obtain ⟨h1, h2⟩ := ih r _ r' ftw' h hinv'
          refine ⟨h1, fun g hg enc henc => ?_⟩
          rcases List.mem_cons.mp hg with hgf | hgr
          · subst hgf
            rw [hfind] at henc
            cases henc
            refine ⟨decrypted, hdec, Or.inr ?_⟩
            refine ⟨⟨g, decrypted, true⟩, ?_, rfl⟩
            exact pullClassify_mono e lf cache rest _ _ r' ftw' h _
              (List.mem_append_right _ (List.mem_singleton_self _))
          · exact h2 g hgr enc henc

theorem pullWrite_find_none : ∀ (ftw : List FileToWrite) (lf : FileMap)
    (r : PullResult) (f : String),
    (∀ x ∈ ftw, x.file ≠ f) →
    FileMap.find (pullWrite ftw lf r).1 f = FileMap.find lf f := by
  intro ftw
  induction ftw with
  | nil => intro lf r f _; rfl
  | cons x rest ih =>
    intro lf r f hne
    unfold pullWrite
    rw [ih _ _ f (fun y hy => hne y (List.mem_cons_of_mem x hy))]
    exact FileMap.find_insert_ne _ _ _ _ (hne x (List.mem_cons_self x rest))

theorem pullWrite_find_some : ∀ (ftw : List FileToWrite) (lf : FileMap)
    (r : PullResult) (f : String) (d : List Nat),
    (∀ x ∈ ftw, x.file = f → x.decrypted = d) →
    (∃ x ∈ ftw, x.file = f) →
    FileMap.find (pullWrite ftw lf r).1 f = some d := by
  intro ftw
  induction ftw with
  | nil =>
    intro lf r f d _ hex
    obtain ⟨x, hx, -⟩ := hex
    exact absurd hx (List.not_mem_nil x)
  | cons x rest ih =>
    intro lf r f d huni hex
    unfold pullWrite
    by_cases hrest : ∃ y ∈ rest, y.file = f
    · exact ih _ _ f d (fun y hy => huni y (List.mem_cons_of_mem x hy)) hrest
    · obtain ⟨y, hy, hyf⟩ := hex
      rcases List.mem_cons.mp hy with hyx | hyr
      · subst hyx
        have hxf : y.file = f := hyf
        have hxd : y.decrypted = d := huni y (List.mem_cons_self y rest) hyf
        rw [pullWrite_find_none rest _ _ f
          (fun z hz hzf => hrest ⟨z, hz, hzf⟩)]
        rw [← hxf, ← hxd]
        exact FileMap.find_insert_self lf y.file y.decrypted
      · exact absurd ⟨y, hyr, hyf⟩ hrest

theorem pullWrite_fields : ∀ (ftw : List FileToWrite) (lf : FileMap)
    (r : PullResult),
    (pullWrite ftw lf r).2.filesSkipped = r.filesSkipped
    ∧ (pullWrite ftw lf r).2.filesSkippedConflict = r.filesSkippedConflict
    ∧ (pullWrite ftw lf r).2.filesWithConflicts = r.filesWithConflicts
    ∧ (pullWrite ftw lf r).2.ref = r.ref := by
  intro ftw
  induction ftw with
  | nil => intro lf r; exact ⟨rfl, rfl, rfl, rfl⟩
  | cons x rest ih =>
    intro lf r
    unfold pullWrite
    cases hn : x.isNew with
    | true =>
      simp only [if_true]
      exact ih _ _
    | false =>
      simp only [Bool.false_eq_true, if_false]
      exact ih _ _

theorem filterSkips_spec (skips : List String) :
    ∀ (ftw : List FileToWrite) (r : PullResult),
    (filterSkips skips ftw r).2.filesSkippedConflict
      = r.filesSkippedConflict
        + ftw.countP (fun x => decide (x.file ∈ skips))
    ∧ (filterSkips skips ftw r).1
      = ftw.filter (fun x => !decide (x.file ∈ skips))
    ∧ (filterSkips skips ftw r).2.filesCreated = r.filesCreated
    ∧ (filterSkips skips ftw r).2.filesUpdated = r.filesUpdated
    ∧ (filterSkips skips ftw r).2.filesSkipped = r.filesSkipped
    ∧ (filterSkips skips ftw r).2.ref = r.ref := by
  intro ftw
  induction ftw with
  | nil =>
    intro r
    exact ⟨rfl, rfl, rfl, rfl, rfl, rfl⟩
  | cons x rest ih =>
    intro r
    unfold filterSkips
    by_cases hx : x.file ∈ skips
    · have hpx : decide (x.file ∈ skips) = true := decide_eq_true hx
      rw [if_pos hx]
      obtain ⟨h1, h2, h3, h4, h5, h6⟩ := ih
        { r with filesSkippedConflict := r.filesSkippedConflict + 1 }
      refine ⟨?_, ?_, h3, h4, h5, h6⟩
      · rw [h1, List.countP_cons, hpx]
        show r.filesSkippedConflict + 1
              + List.countP (fun x => decide (x.file ∈ skips)) rest
            = r.filesSkippedConflict
              + (List.countP (fun x => decide (x.file ∈ skips)) rest
                + if true = true then 1 else 0)
        rw [if_pos rfl]
        omega
      · rw [h2, List.filter_cons, hpx]
        simp only [Bool.not_true, Bool.false_eq_true, if_false]
    · have hpx : decide (x.file ∈ skips) = false := decide_eq_false hx
      rw [if_neg hx]
      dsimp only
      obtain ⟨h1, h2, h3, h4, h5, h6⟩ := ih r
      refine ⟨?_, ?_, h3, h4, h5, h6⟩
      · rw [h1, List.countP_cons, hpx]
        simp only [Bool.false_eq_true, if_false]
        omega
      · rw [h2, List.filter_cons, hpx]
        simp only [Bool.not_false, if_true]

theorem pullCheckout_inv {env : PullEnv} {opts : PullOptions}
    {c1 c2 : FileMap} {ref' : String}
    (h : pullCheckout env opts c1 = .ok (c2, ref')) :
    (opts.ref ≠ "" ∧ env.atRef opts.ref = .ok c2 ∧ ref' = opts.ref)
    ∨ (opts.ref = "" ∧ c2 = c1 ∧ ref' = env.head) := by
  unfold pullCheckout at h
  by_cases hr : opts.ref ≠ ""
  · rw [if_pos hr] at h
    cases ha : env.atRef opts.ref with
    | error err =>
      rw [ha] at h
      exact absurd h (by simp)
    | ok cacheR =>
      rw [ha] at h
      dsimp only at h
      simp only [Except.ok.injEq, Prod.mk.injEq] at h
      exact Or.inl ⟨hr, by rw [h.1], h.2.symm⟩
  · rw [if_neg hr] at h
    simp only [Except.ok.injEq, Prod.mk.injEq] at h
    exact Or.inr ⟨not_not.mp hr, h.1.symm, h.2.symm⟩

theorem forceWrap_skippedConflict (force : Bool) (w : PullResult) :
    (if force then { w with filesWithConflicts := [] } else w).filesSkippedConflict
      = w.filesSkippedConflict := by
  cases force <;> rfl

/-- Inverts a successful non-dry pull with no conflict-skips: the remote
exists, checkout succeeded on the synced cache giving the returned cache,
classification succeeded, and the returned local tree is the write pass
applied to the full queued list. -/
theorem pull_ok_inv {e : Encrypter} {env : PullEnv} {opts : PullOptions}
    {lf0 cache0 : FileMap} {r1 : PullResult} {lf1 cache1 : FileMap}
    (hdry : opts.dryRun = false)
    (hnoskip : r1.filesSkippedConflict = 0)
    (h : Syncer.Pull e env opts lf0 cache0 = (.ok r1, lf1, cache1)) :
    env.remoteExists = true
    ∧ ∃ refUsed resultC ftwC resultW,
      pullCheckout env opts (syncFromStorage env.remote cache0)
        = .ok (cache1, refUsed)
      ∧ pullClassify e lf0 cache1 env.files (pullInit refUsed) []
          = .ok (resultC, ftwC)
      ∧ lf1 = (pullWrite ftwC lf0 resultW).1 := by
  unfold Syncer.Pull at h
  by_cases hrem : env.remoteExists = false
  · rw [if_pos hrem] at h
    exact absurd h (by simp)
  · rw [if_neg hrem] at h
    have hremT : env.remoteExists = true := by
      cases hq : env.remoteExists
      · exact absurd hq hrem
      · rfl
    refine ⟨hremT, ?_⟩
    cases hco : pullCheckout env opts (syncFromStorage env.remote cache0) with
    | error err =>
      rw [hco] at h
      exact absurd h (by simp)
    | ok st =>
      obtain ⟨cache2, refUsed⟩ := st
      rw [hco] at h
      dsimp only at h
      cases hcl : pullClassify e lf0 cache2 env.files (pullInit refUsed) [] with
      | error err =>
        rw [hcl] at h
        exact absurd h (by simp)
      | ok st2 =>
        obtain ⟨resultC, ftwC⟩ := st2
        rw [hcl] at h
        dsimp only at h
        have hfin : ∀ ftwW resultW,
            pullFinish opts lf0 cache2 ftwW resultW = (.ok r1, lf1, cache1) →
            cache1 = cache2 ∧ lf1 = (pullWrite ftwW lf0 resultW).1
              ∧ r1.filesSkippedConflict = resultW.filesSkippedConflict := by
          intro ftwW resultW hf
          unfold pullFinish at hf
          rw [hdry] at hf
          simp only [Bool.false_eq_true, if_false, Prod.mk.injEq,
            Except.ok.injEq] at hf
          refine ⟨hf.2.2.symm, hf.2.1.symm, ?_⟩
          rw [← hf.1, forceWrap_skippedConflict]
          exact (pullWrite_fields ftwW lf0 resultW).2.1
        split at h
        · cases hres : opts.conflictResolver with
          | none =>
            rw [hres] at h
            exact absurd h (by simp)
          | some resolver =>
            rw [hres] at h
            dsimp only at h
            cases hrv : pullResolve resolver resultC ftwC with
            | error err =>
              rw [hrv] at h
              exact absurd h (by simp)
            | ok st3 =>
              obtain ⟨result3, ftw2⟩ := st3
              rw [hrv] at h
              dsimp only at h
              obtain ⟨hc1, hlf1, hskip⟩ := hfin ftw2 result3 h
              subst hc1
              unfold pullResolve at hrv
              cases hrc : resolveConflicts resolver
                  resultC.filesWithConflicts [] with
              | error err =>
                rw [hrc] at hrv
                exact absurd hrv (by simp)
              | ok skips =>
                rw [hrc] at hrv
                dsimp only at hrv
                simp only [Except.ok.injEq, Prod.mk.injEq] at hrv
                obtain ⟨hfs1, hfs2, hfs3, hfs4, hfs5, hfs6⟩ :=
                  filterSkips_spec skips ftwC resultC
                have hC0 : resultC.filesSkippedConflict = 0 :=
                  (pullClassify_fields e lf0 cache1 env.files _ _ _ _ hcl).2.2.1
                have hcount : ftwC.countP (fun x => decide (x.file ∈ skips)) = 0 := by
                  have : r1.filesSkippedConflict
                      = resultC.filesSkippedConflict
                        + ftwC.countP (fun x => decide (x.file ∈ skips)) := by
                    rw [hskip, ← hrv.1]
                    exact hfs1
                  omega
                have hftw2 : ftw2 = ftwC := by
                  rw [← hrv.2, hfs2]
                  apply List.filter_eq_self.mpr
                  intro x hx
                  have hnotin := List.countP_eq_zero.mp hcount x hx
                  simp only [Bool.not_eq_true'] at hnotin ⊢
                  simpa using hnotin
                exact ⟨refUsed, resultC, ftwC, result3, rfl, hcl,
                  by rw [← hftw2]; exact hlf1⟩
        · obtain ⟨hc1, hlf1, -⟩ := hfin ftwC resultC h
          subst hc1
          exact ⟨refUsed, resultC, ftwC, resultC, rfl, hcl, hlf1⟩

theorem pullClassify_all_unchanged (e : Encrypter) (lf cache : FileMap) :
    ∀ (files : List String) (r : PullResult) (ftw : List FileToWrite),
    (∀ f ∈ files, ∀ enc, FileMap.find cache (f ++ ".age") = some enc →
      ∃ d, e.decrypt enc = .ok d ∧ (d.length : Int) ≤ MaxEnvFileSize
        ∧ FileMap.find lf f = some d) →
    pullClassify e lf cache files r ftw
      = .ok ({ r with filesSkipped := r.filesSkipped
            + files.countP (fun f => (FileMap.find cache (f ++ ".age")).isSome) },
          ftw) := by
  intro files
  induction files with
  | nil =>
    intro r ftw _
    rw [List.countP_nil, Nat.add_zero]
    rfl
  | cons f rest ih =>
    intro r ftw hinv
    unfold pullClassify
    cases hfind : FileMap.find cache (f ++ ".age") with
    | none =>
      rw [ih r ftw (fun g hg => hinv g (List.mem_cons_of_mem f hg))]
      rw [List.countP_cons, hfind]
      simp only [Option.isSome_none, Bool.false_eq_true, if_false,
        Nat.add_zero]
    | some enc =>
      obtain ⟨d, hdec, hlen, hlf⟩ :=
        hinv f (List.mem_cons_self f rest) enc hfind
      dsimp only
      rw [hdec]
      dsimp only
      rw [readFile_ok_of lf f d hlf hlen]
      dsimp only
      rw [if_pos rfl]
      rw [ih _ ftw (fun g hg => hinv g (List.mem_cons_of_mem f hg))]
      dsimp only
      rw [List.countP_cons, hfind]
      simp only [Option.isSome_some, reduceIte]
      have harith : ∀ c : Nat, r.filesSkipped + 1 + c = r.filesSkipped + (c + 1) :=
        fun c => by omega
      rw [harith]

/-- C7 (amended): immediately repeating a successful pull that was not a dry
run and skipped no conflicting file (every tracked file in the cache was
either written or already identical) classifies every tracked file as
unchanged: the repeat succeeds, creates and updates nothing, reports no
conflicts, counts every cached tracked file as skipped-unchanged, and leaves
the local working tree exactly as it was.  The encrypter hypothesis —
decrypted outputs stay within `MaxEnvFileSize` — holds for `AgeEncrypter`
by construction of its `Decrypt`. -/
theorem pull_idempotent (e : Encrypter)
    (hdlen : ∀ ct d, e.decrypt ct = .ok d → (d.length : Int) ≤ MaxEnvFileSize)
    (env : PullEnv) (opts : PullOptions) (lf0 cache0 : FileMap)
    (r1 : PullResult) (lf1 cache1 : FileMap)
    (hdry : opts.dryRun = false)
    (hp1 : Syncer.Pull e env opts lf0 cache0 = (.ok r1, lf1, cache1))
    (hnoskip : r1.filesSkippedConflict = 0) :
    ∃ r2 cache2,
      Syncer.Pull e env opts lf1 cache1 = (.ok r2, lf1, cache2)
      ∧ r2.filesCreated = 0 ∧ r2.filesUpdated = 0
      ∧ r2.filesWithConflicts = [] ∧ r2.filesSkippedConflict = 0
      ∧ r2.filesSkipped = env.files.countP
          (fun f => (FileMap.find cache2 (f ++ ".age")).isSome) := by
  obtain ⟨hremote, refUsed, resultC, ftwC, resultW, hco, hcl, hlf1⟩ :=
    pull_ok_inv hdry hnoskip hp1
  -- the written locals mirror every cached tracked file
  obtain ⟨hftwInv, hperfile⟩ :=
    pullClassify_post e lf0 cache1 env.files (pullInit refUsed) [] resultC ftwC
      hcl (fun x hx => absurd hx (List.not_mem_nil x))
  have hinv1 : ∀ f ∈ env.files, ∀ enc,
      FileMap.find cache1 (f ++ ".age") = some enc →
      ∃ d, e.decrypt enc = .ok d ∧ (d.length : Int) ≤ MaxEnvFileSize
        ∧ FileMap.find lf1 f = some d := by
    intro f hf enc henc
    obtain ⟨d, hdec, hcase⟩ := hperfile f hf enc henc
    refine ⟨d, hdec, hdlen enc d hdec, ?_⟩
    have huniform : ∀ x ∈ ftwC, x.file = f → x.decrypted = d := by
      intro x hx hxf
      obtain ⟨enc', henc', hdec'⟩ := hftwInv x hx
      rw [hxf] at henc'
      rw [henc] at henc'
      cases henc'
      rw [hdec] at hdec'
      cases hdec'
      rfl
    by_cases hex : ∃ x ∈ ftwC, x.file = f
    · rw [hlf1]
      exact pullWrite_find_some ftwC lf0 resultW f d huniform hex
    · rcases hcase with hlf0 | hex'
      · rw [hlf1]
        rw [pullWrite_find_none ftwC lf0 resultW f
          (fun x hx hxf => hex ⟨x, hx, hxf⟩)]
        exact hlf0
      · exact absurd hex' hex
  -- the second sync-and-checkout yields a cache with the same content
  have hsync2 : ∃ cacheB refUsed₂,
      pullCheckout env opts (syncFromStorage env.remote cache1)
        = .ok (cacheB, refUsed₂)
      ∧ ∀ k, FileMap.find cacheB k = FileMap.find cache1 k := by
    rcases pullCheckout_inv hco with ⟨href, hat, hru⟩ | ⟨href, hc2, hru⟩
    · refine ⟨cache1, opts.ref, ?_, fun k => rfl⟩
      unfold pullCheckout
      rw [if_pos href, hat]
    · refine ⟨syncFromStorage env.remote cache1, env.head, ?_, ?_⟩
      · unfold pullCheckout
        rw [if_neg (not_not.mpr href)]
      · intro k
        rw [hc2]
        exact syncFromStorage_idem_find env.remote cache0 k
  obtain ⟨cacheB, refUsed₂, hco2, hBfind⟩ := hsync2
  have hinvB : ∀ f ∈ env.files, ∀ enc,
      FileMap.find cacheB (f ++ ".age") = some enc →
      ∃ d, e.decrypt enc = .ok d ∧ (d.length : Int) ≤ MaxEnvFileSize
        ∧ FileMap.find lf1 f = some d := by
    intro f hf enc henc
    rw [hBfind] at henc
    exact hinv1 f hf enc henc
  have hcl2 := pullClassify_all_unchanged e lf1 cacheB env.files
    (pullInit refUsed₂) [] hinvB
  refine ⟨{ pullInit refUsed₂ with filesSkipped := 0 + env.files.countP (fun f => (FileMap.find cacheB (f ++ ".age")).isSome) }, cacheB, ?_, rfl, rfl, rfl, rfl, by simp [pullInit]⟩
  unfold Syncer.Pull
  rw [if_neg (by rw [hremote]; simp)]
  rw [hco2]
  dsimp only
  rw [hcl2]
  dsimp only
  rw [if_neg (by simp [pullInit])]
  unfold pullFinish
  rw [hdry]
  simp only [Bool.false_eq_true, if_false]
  unfold pullWrite
  try dsimp only
  cases hforce : opts.force with
  | true =>
    rw [if_pos rfl]
    rfl
  | false =>
    rw [if_neg (by simp)]
    rfl

/-- An encrypter whose decrypted outputs are bounded by `MaxEnvFileSize`, as
`AgeEncrypter.Decrypt` guarantees; used to evaluate `pull_idempotent` at a
concrete input. -/
def boundedEncrypter : Encrypter :=
  { encrypt := fun b => .ok b
    decrypt := fun b => .ok (b.take (1024 * 1024)) }

theorem boundedEncrypter_len (ct d : List Nat)
    (h : boundedEncrypter.decrypt ct = .ok d) :
    (d.length : Int) ≤ MaxEnvFileSize := by
  cases h
  have := List.length_take_le (1024 * 1024) ct
  unfold MaxEnvFileSize
  omega

/-- Witness for `pull_idempotent`: a first pull creates `a`; repeating it
classifies `a` as unchanged. -/
theorem pull_idempotent_witness :
    ∃ r2 cache2,
      Syncer.Pull boundedEncrypter pullCexEnv pullAbortOpts [("a", [2])]
          [("a.age", [2])]
        = (.ok r2, [("a", [2])], cache2)
      ∧ r2.filesCreated = 0 ∧ r2.filesUpdated = 0
      ∧ r2.filesWithConflicts = [] ∧ r2.filesSkippedConflict = 0
      ∧ r2.filesSkipped = pullCexEnv.files.countP
          (fun f => (FileMap.find cache2 (f ++ ".age")).isSome) :=
  pull_idempotent boundedEncrypter boundedEncrypter_len pullCexEnv
    pullAbortOpts [] []
    { filesUpdated := 0, filesCreated := 1, filesSkipped := 0,
      filesSkippedConflict := 0, ref := "h", filesWithConflicts := [] }
    [("a", [2])] [("a.age", [2])] rfl rfl rfl

/-! ## Path safety (`internal/pathutil/secure.go`, `SecureJoin`)

Paths are lists of characters (Go works on bytes; the two views agree on the
ASCII patterns `/` and `..` involved here).  `filepath.Clean`,
`filepath.IsAbs`, `strings.HasPrefix` and `strings.Contains` are modelled
for the Unix separator `/`.  The external `cyphar/filepath-securejoin`
resolver is abstracted as a parameter `sj`; the code re-checks its output
textually, so the safety guarantee holds for every `sj` behaviour. -/

/-- `strings.HasPrefix s pre`. -/
def goHasPre (s pre : List Char) : Bool :=
  List.isPrefixOf pre s

/-- `strings.Contains s sub`. -/
def goContains (s sub : List Char) : Bool :=
  match s with
  | [] => sub.isEmpty
  | _ :: rest => List.isPrefixOf sub s || goContains rest sub

/-- `filepath.IsAbs` on Unix: the path begins with `/`. -/
def isAbsPath (p : List Char) : Bool :=
  goHasPre p ['/']

/-- Split on `/` (components of a path, empty components for repeated
separators). -/
def splitSlashAux (cur : List Char) : List Char → List (List Char)
  | [] => [cur.reverse]
  | c :: rest =>
    if c = '/' then cur.reverse :: splitSlashAux [] rest
    else splitSlashAux (c :: cur) rest

def splitSlash (s : List Char) : List (List Char) :=
  splitSlashAux [] s

/-- The element loop of Go's `path.Clean`: drop empty and `.` components;
on `..` pop a previous component, keep `..` when nothing can be popped in a
relative path, or drop it at the root of an absolute one. -/
def cleanComps (rooted : Bool) : List (List Char) → List (List Char) →
    List (List Char)
  | [], out => out.reverse
  | c :: rest, out =>
    if c = [] ∨ c = ['.'] then cleanComps rooted rest out
    else if c = ['.', '.'] then
      match out with
      | [] =>
        if rooted then cleanComps rooted rest []
        else cleanComps rooted rest [['.', '.']]
      | o :: os =>
        if o = ['.', '.'] then cleanComps rooted rest (['.', '.'] :: o :: os)
        else cleanComps rooted rest os
    else cleanComps rooted rest (c :: out)

def joinSlash : List (List Char) → List Char
  | [] => []
  | [c] => c
  | c :: rest => c ++ '/' :: joinSlash rest

/-- Go's `filepath.Clean` for the Unix separator. -/
def goClean (p : List Char) : List Char :=
  if p = [] then ['.']
  else if goHasPre p ['/'] then
    '/' :: joinSlash (cleanComps true (splitSlash p) [])
  else if joinSlash (cleanComps false (splitSlash p) []) = [] then ['.']
  else joinSlash (cleanComps false (splitSlash p) [])

def dotdot : List Char := ['.', '.']

def sepDotdot : List Char := ['/', '.', '.']

/-- `pathutil.SecureJoin` (secure.go): clean the relative path, reject
absolute or `..`-escaping forms, call the external secure-join resolver
(wrapping its errors), and finally require the result to be the base or to
extend it past a separator.  Every rejection uses `domain.ErrInvalidArgs`
(the invalid-path error of this codebase). -/
def SecureJoin
    (sj : List Char → List Char → Except (List Char) (List Char))
    (baseDir relativePath : List Char) : Except DomainError (List Char) :=
  if isAbsPath (goClean relativePath) = true then .error .invalidArgs
  else if (goHasPre (goClean relativePath) dotdot
      || goContains (goClean relativePath) sepDotdot) = true then
    .error .invalidArgs
  else
    match sj baseDir relativePath with
    | .error _ => .error .invalidArgs
    | .ok safePath =>
      if safePath ≠ baseDir ∧ goHasPre safePath (baseDir ++ ['/']) = false then
        .error .invalidArgs
      else .ok safePath

/-- The cleaned path has a `..` component: `..` occurs at the start or after
a separator, ending the string or followed by one. -/
def HasDotdotComponent (s : List Char) : Prop :=
  ∃ pre post, s = pre ++ dotdot ++ post
    ∧ (pre = [] ∨ ∃ pre', pre = pre' ++ ['/'])
    ∧ (post = [] ∨ ∃ post', post = '/' :: post')

theorem goContains_of_decomp (sub : List Char) :
    ∀ pre post s, s = pre ++ sub ++ post → goContains s sub = true := by
  intro pre
  induction pre with
  | nil =>
    intro post s hs
    simp only [List.nil_append] at hs
    subst hs
    cases hsp : sub ++ post with
    | nil =>
      have hsub : sub = [] := by
        cases sub with
        | nil => rfl
        | cons a l => exact absurd hsp (by simp)
      simp [goContains, hsub]
    | cons c rest =>
      have hpre : List.isPrefixOf sub (c :: rest) = true := by
        rw [← hsp]
        exact List.isPrefixOf_iff_prefix.mpr (List.prefix_append sub post)
      unfold goContains
      rw [hpre]
      rfl
  | cons c pre' ih =>
    intro post s hs
    subst hs
    unfold goContains
    dsimp only [List.cons_append]
    rw [ih post (pre' ++ sub ++ post) rfl]
    simp

theorem hasDotdot_rejected {s : List Char} (h : HasDotdotComponent s) :
    (goHasPre s dotdot || goContains s sepDotdot) = true := by
  obtain ⟨pre, post, hs, hpre, -⟩ := h
  rcases hpre with hnil | ⟨pre', hsl⟩
  · subst hnil
    simp only [List.nil_append] at hs
    subst hs
    have : goHasPre (dotdot ++ post) dotdot = true :=
      List.isPrefixOf_iff_prefix.mpr (List.prefix_append dotdot post)
    rw [this]
    rfl
  · subst hsl
    have : s = pre' ++ sepDotdot ++ post := by
      rw [hs]
      simp [sepDotdot, dotdot]
    rw [goContains_of_decomp sepDotdot pre' post s this]
    simp

theorem goClean_abs {p : List Char} (h : isAbsPath p = true) :
    isAbsPath (goClean p) = true := by
  have hne : ¬(p = []) := by
    intro hp
    subst hp
    exact absurd h (by decide)
  have h' : goHasPre p ['/'] = true := h
  unfold goClean
  rw [if_neg hne, if_pos h']
  simp [isAbsPath, goHasPre, List.isPrefixOf]

/-- C8: for every behaviour of the external secure-join resolver, every base
directory and every externally supplied relative path, `SecureJoin` either
returns a path equal to the base or textually extending the base past a
separator, or fails with the invalid-path error (`domain.ErrInvalidArgs`);
in particular absolute inputs, and inputs whose cleaned form is `..`, starts
with `../`, or contains a `..` component, are always rejected. -/
theorem secureJoin_safe
    (sj : List Char → List Char → Except (List Char) (List Char))
    (base rel : List Char) :
    (∀ p, SecureJoin sj base rel = .ok p →
      p = base ∨ goHasPre p (base ++ ['/']) = true)
    ∧ (∀ err, SecureJoin sj base rel = .error err →
      err = DomainError.invalidArgs)
    ∧ ((isAbsPath rel = true
        ∨ goClean rel = dotdot
        ∨ goHasPre (goClean rel) (dotdot ++ ['/']) = true
        ∨ HasDotdotComponent (goClean rel))
       → SecureJoin sj base rel = .error .invalidArgs) := by
  refine ⟨?_, ?_, ?_⟩
  · intro p hp
    unfold SecureJoin at hp
    split at hp
    · exact absurd hp (by simp)
    · split at hp
      · exact absurd hp (by simp)
      · cases hsj : sj base rel with
        | error err =>
          rw [hsj] at hp
          exact absurd hp (by simp)
        | ok safePath =>
          rw [hsj] at hp
          dsimp only at hp
          split at hp
          · exact absurd hp (by simp)
          · rename_i hcond
            cases hp
            rcases not_and_or.mp hcond with h1 | h2
            · exact Or.inl (not_not.mp h1)
            · refine Or.inr ?_
              cases hq : goHasPre p (base ++ ['/'])
              · exact absurd hq h2
              · rfl
  · intro err herr
    unfold SecureJoin at herr
    split at herr
    · cases herr
      rfl
    · split at herr
      · cases herr
        rfl
      · cases hsj : sj base rel with
        | error e' =>
          rw [hsj] at herr
          cases herr
          rfl
        | ok safePath =>
          rw [hsj] at herr
          dsimp only at herr
          split at herr
          · cases herr
            rfl
          · exact absurd herr (by simp)
  · intro hreject
    unfold SecureJoin
    by_cases habs : isAbsPath (goClean rel) = true
    · rw [if_pos habs]
    · rw [if_neg habs]
      have hcheck : (goHasPre (goClean rel) dotdot
          || goContains (goClean rel) sepDotdot) = true := by
        rcases hreject with h1 | h2 | h3 | h4
        · exact absurd (goClean_abs h1) habs
        · rw [h2]
          rfl
        · have : goHasPre (goClean rel) dotdot = true := by
            unfold goHasPre at h3 ⊢
            exact List.isPrefixOf_iff_prefix.mpr
              (List.IsPrefix.trans (List.prefix_append dotdot ['/'])
                (List.isPrefixOf_iff_prefix.mp h3))
          rw [this]
          rfl
        · exact hasDotdot_rejected h4
      rw [if_pos hcheck]

/-- Witness for `secureJoin_safe`: a traversal input `../x` is rejected,
and an accepted join lands under the base. -/
theorem secureJoin_safe_witness :
    SecureJoin (fun b r => .ok (b ++ ['/'] ++ r)) ['/', 'b']
        ['.', '.', '/', 'x']
      = .error .invalidArgs
    ∧ (['/', 'b', '/', 'x'] = ['/', 'b']
       ∨ goHasPre ['/', 'b', '/', 'x'] (['/', 'b'] ++ ['/']) = true) := by
  constructor
  · exact (secureJoin_safe (fun b r => .ok (b ++ ['/'] ++ r)) ['/', 'b']
      ['.', '.', '/', 'x']).2.2
      (Or.inr (Or.inr (Or.inl (by decide))))
  · exact (secureJoin_safe (fun b r => .ok (b ++ ['/'] ++ r)) ['/', 'b']
      ['x']).1 ['/', 'b', '/', 'x'] rfl

end EnvSecrets
